import Mathlib

/-!
Verification development for the echoshell session picker (`main.go`).

The Go source is shallowly embedded: strings are Lean `String`s (Go byte
strings are valid UTF-8 here, so `String.data : List Char` traversals agree
with Go's rune loops, and byte-wise lexicographic comparison of UTF-8 agrees
with code-point comparison), Go slices are `List`s, and effectful inputs
(tmux query results, directory listings) are passed as explicit parameters.
`sort.Slice` is modelled by `List.insertionSort`: the Go sort guarantees
exactly a sorted permutation, and the theorems below about sortedness,
permutation and uniqueness-under-distinct-keys are the properties shared by
every sorted permutation.
-/

set_option linter.unusedVariables false

namespace Echoshell

/-- Characters kept by `normalizeForMatch` in `main.go`: `a`..`z` and `0`..`9`. -/
def isAlnumLower (c : Char) : Bool := ('a' ≤ c && c ≤ 'z') || ('0' ≤ c && c ≤ '9')

/-- Whitespace as recognised by Go's `unicode.IsSpace` restricted to the
Latin-1 range (space, tab, newline, vertical tab, form feed, carriage
return, NEL, NBSP). -/
def isSpaceGo (c : Char) : Bool :=
  c = ' ' || c = '\t' || c = '\n' || c = '\x0b' || c = '\x0c' || c = '\r' ||
  c = '\x85' || c = '\xa0'

/-- Drop leading whitespace (left half of Go `strings.TrimSpace`). -/
def trimLeft (l : List Char) : List Char := l.dropWhile isSpaceGo

/-- Drop trailing whitespace (right half of Go `strings.TrimSpace`). -/
def trimRight (l : List Char) : List Char := (l.reverse.dropWhile isSpaceGo).reverse

/-- Go `strings.TrimSpace` on rune lists. -/
def goTrimSpace (l : List Char) : List Char := trimLeft (trimRight l)

/-- Go `strings.TrimSpace` on strings. -/
def trimS (s : String) : String := String.mk (goTrimSpace s.data)

/-- Go `strings.ToLower` for the ASCII range (the only case the program
feeds it: session names, repo names, paths). -/
def goToLower (c : Char) : Char :=
  if 'A' ≤ c && c ≤ 'Z' then Char.ofNat (c.toNat + 32) else c

/-- The rune loop body of `normalizeForMatch` (`main.go`): keep lowercase
alphanumerics, collapse every maximal run of other characters to a single
space. The `space` flag records whether the previous output was a space. -/
def collapseRuns : List Char → Bool → List Char
  | [], _ => []
  | c :: rest, space =>
    if isAlnumLower c then c :: collapseRuns rest false
    else if space then collapseRuns rest true
    else ' ' :: collapseRuns rest true

/-- `normalizeForMatch` from `main.go`: lowercase, trim, collapse non
alphanumeric runs to single spaces, trim again. -/
def normalizeForMatch (s : String) : String :=
  let t := (goTrimSpace s.data).map goToLower
  if t = [] then "" else String.mk (goTrimSpace (collapseRuns t false))

/-- Accumulator worker for `goFields`; `acc` holds the current word reversed. -/
def fieldsAux (acc : List Char) : List Char → List String
  | [] => if acc.isEmpty then [] else [String.mk acc.reverse]
  | c :: rest =>
    if isSpaceGo c then
      if acc.isEmpty then fieldsAux [] rest
      else String.mk acc.reverse :: fieldsAux [] rest
    else fieldsAux (c :: acc) rest

/-- Go `strings.Fields`: whitespace-delimited tokens. -/
def goFields (l : List Char) : List String := fieldsAux [] l

/-- Substring search: does `sub` occur contiguously inside the second list?
Models Go `strings.Contains` (a valid UTF-8 byte-level match always aligns
with rune boundaries, so rune-level search is equivalent). -/
def listContains (sub : List Char) : List Char → Bool
  | [] => sub.isEmpty
  | c :: t => sub.isPrefixOf (c :: t) || listContains sub t

/-- Go `strings.Contains` on strings. -/
def goContains (s sub : String) : Bool := listContains sub.data s.data

/-- `subseq` from `main.go`: the characters of the second list appear in the
first list in order, not necessarily contiguously. -/
def subseqL : List Char → List Char → Bool
  | _, [] => true
  | [], _ :: _ => false
  | h :: hs, c :: cs => if h = c then subseqL hs cs else subseqL hs (c :: cs)

/-- `subseq(hay, needle)` from `main.go`. -/
def subseq (hay needle : String) : Bool := subseqL hay.data needle.data

/-- Go byte-wise lexicographic string comparison `<`, as rune-list
comparison (UTF-8 byte order coincides with code-point order). -/
def lexLt : List Char → List Char → Bool
  | [], [] => false
  | [], _ :: _ => true
  | _ :: _, [] => false
  | a :: as, b :: bs => if a < b then true else if b < a then false else lexLt as bs

/-- Go string `<` on strings. -/
def strLt (a b : String) : Bool := lexLt a.data b.data

/-- Go `strings.Join(xs, " ")`. -/
def joinSpace : List String → String
  | [] => ""
  | [x] => x
  | x :: rest => x ++ " " ++ joinSpace rest

/-- `sessionInfo` from `main.go` (window count as `Nat`: the source value is
a parsed non-negative decimal). -/
structure sessionInfo where
  name : String
  workdir : String
  attached : Bool
  windows : Nat
deriving DecidableEq, Inhabited

/-- `workspaceGroup` from `main.go`. -/
structure workspaceGroup where
  workspace : String
  repo : String
  name : String
  path : String
  sessions : List sessionInfo
deriving DecidableEq, Inhabited

/-- `quickCandidate` from `main.go`. -/
structure quickCandidate where
  workspace : String
  repo : String
  session : sessionInfo
  score : Nat
deriving DecidableEq, Inhabited

/-- The token-scoring loop of `scoreSessionMatch` (`main.go`): each token
must pass the substring test (`10 + len`) or, failing that, the subsequence
test (`4 + len`); otherwise the whole candidate is rejected (`none`). -/
def scoreTokens (hay : String) : List String → Option Nat
  | [] => some 0
  | p :: rest =>
    if goContains hay p then (scoreTokens hay rest).map (· + (10 + p.length))
    else if subseq hay p then (scoreTokens hay rest).map (· + (4 + p.length))
    else none

/-- `scoreSessionMatch` from `main.go`. -/
def scoreSessionMatch (tokens : List String) (g : workspaceGroup) (s : sessionInfo) :
    Nat × Bool :=
  let t := normalizeForMatch (joinSpace tokens)
  if t = "" then (0, false)
  else
    let parts := goFields t.data
    if parts = [] then (0, false)
    else
      let hay := normalizeForMatch (joinSpace [s.name, g.name, g.workspace, g.repo, s.workdir])
      match scoreTokens hay parts with
      | none => (0, false)
      | some sc =>
        (sc + (if goContains hay (normalizeForMatch s.name) then 3 else 0), true)

/-- Per-token contribution as the spec states it: `10 + len` for a verbatim
substring occurrence, else `4 + len` for an in-order subsequence. -/
def tokenContribution (hay p : String) : Nat :=
  if goContains hay p then 10 + p.length else 4 + p.length

/-- Sum of the spec's per-token contributions. -/
def tokenSum (hay : String) (parts : List String) : Nat :=
  (parts.map (tokenContribution hay)).sum

/-- The token list the scoring loop of `scoreSessionMatch` iterates over:
the normalized query re-split into whitespace-delimited parts. -/
def queryParts (tokens : List String) : List String :=
  goFields (normalizeForMatch (joinSpace tokens)).data

/-- The normalized haystack `scoreSessionMatch` scores against. -/
def hayOf (g : workspaceGroup) (s : sessionInfo) : String :=
  normalizeForMatch (joinSpace [s.name, g.name, g.workspace, g.repo, s.workdir])

theorem scoreTokens_none_iff (hay : String) (parts : List String) :
    scoreTokens hay parts = none ↔
      ∃ p ∈ parts, goContains hay p = false ∧ subseq hay p = false := by
  induction parts with
  | nil => simp [scoreTokens]
  | cons p rest ih =>
    by_cases hc : goContains hay p
    · simp only [scoreTokens, hc, if_true]
      constructor
      · intro h
        rcases Option.map_eq_none.mp h with h'
        rcases ih.mp h' with ⟨q, hq, hgq⟩
        exact ⟨q, List.mem_cons_of_mem _ hq, hgq⟩
      · rintro ⟨q, hq, hq1, hq2⟩
        rcases List.mem_cons.mp hq with rfl | hq'
        · simp [hc] at hq1
        · exact Option.map_eq_none.mpr (ih.mpr ⟨q, hq', hq1, hq2⟩)
    · by_cases hs : subseq hay p
      · simp only [scoreTokens, hc, if_false, hs, if_true]
        constructor
        · intro h
          rcases Option.map_eq_none.mp h with h'
          rcases ih.mp h' with ⟨q, hq, hgq⟩
          exact ⟨q, List.mem_cons_of_mem _ hq, hgq⟩
        · rintro ⟨q, hq, hq1, hq2⟩
          rcases List.mem_cons.mp hq with rfl | hq'
          · simp [hs] at hq2
          · exact Option.map_eq_none.mpr (ih.mpr ⟨q, hq', hq1, hq2⟩)
      · simp only [scoreTokens, hc, hs, if_false]
        exact ⟨fun _ => ⟨p, List.mem_cons_self _ _,
          Bool.eq_false_iff.mpr hc, Bool.eq_false_iff.mpr hs⟩, fun _ => rfl⟩

theorem scoreTokens_some (hay : String) (parts : List String)
    (h : ∀ p ∈ parts, goContains hay p = true ∨ subseq hay p = true) :
    scoreTokens hay parts = some (tokenSum hay parts) := by
  induction parts with
  | nil => simp [scoreTokens, tokenSum]
  | cons p rest ih =>
    have hrest := ih (fun q hq => h q (List.mem_cons_of_mem _ hq))
    have hp := h p (List.mem_cons_self _ _)
    by_cases hc : goContains hay p
    · simp [scoreTokens, hc, hrest, tokenSum, tokenContribution, Nat.add_comm]
    · have hs : subseq hay p = true := by
        rcases hp with h1 | h2
        · exact absurd h1 hc
        · exact h2
      simp [scoreTokens, hc, hs, hrest, tokenSum, tokenContribution, Nat.add_comm]

/-- `scoreSessionMatch` rephrased through `queryParts`/`hayOf`/`scoreTokens`. -/
theorem scoreSessionMatch_eq (tokens : List String) (g : workspaceGroup) (s : sessionInfo) :
    scoreSessionMatch tokens g s =
      if queryParts tokens = [] then (0, false)
      else
        match scoreTokens (hayOf g s) (queryParts tokens) with
        | none => (0, false)
        | some sc =>
          (sc + (if goContains (hayOf g s) (normalizeForMatch s.name) then 3 else 0), true) := by
  by_cases ht : normalizeForMatch (joinSpace tokens) = ""
  · have hq : queryParts tokens = [] := by
      simp [queryParts, ht, goFields, fieldsAux]
    simp [scoreSessionMatch, ht, hq]
  · simp only [scoreSessionMatch, ht, if_false]
    rfl

/-- Shared characterisation of the scorer used by the C2 and C9 theorems. -/
theorem scorerCharacterization (tokens : List String) (g : workspaceGroup) (s : sessionInfo) :
    ((∃ p ∈ queryParts tokens,
        goContains (hayOf g s) p = false ∧ subseq (hayOf g s) p = false) →
      scoreSessionMatch tokens g s = (0, false)) ∧
    ((scoreSessionMatch tokens g s).2 = true →
      (∀ p ∈ queryParts tokens,
        goContains (hayOf g s) p = true ∨ subseq (hayOf g s) p = true) ∧
      (scoreSessionMatch tokens g s).1 =
        tokenSum (hayOf g s) (queryParts tokens) +
          (if goContains (hayOf g s) (normalizeForMatch s.name) then 3 else 0)) := by
  constructor
  · intro hbad
    have hnone : scoreTokens (hayOf g s) (queryParts tokens) = none :=
      (scoreTokens_none_iff _ _).mpr hbad
    rw [scoreSessionMatch_eq]
    by_cases hq : queryParts tokens = []
    · simp [hq]
    · simp [hq, hnone]
  · intro hmatch
    have hq : queryParts tokens ≠ [] := by
      intro hq
      rw [scoreSessionMatch_eq, if_pos hq] at hmatch
      simp at hmatch
    have hall : ∀ p ∈ queryParts tokens,
        goContains (hayOf g s) p = true ∨ subseq (hayOf g s) p = true := by
      intro p hp
      by_contra hcon
      push_neg at hcon
      have hnone : scoreTokens (hayOf g s) (queryParts tokens) = none :=
        (scoreTokens_none_iff _ _).mpr
          ⟨p, hp, Bool.eq_false_iff.mpr hcon.1, Bool.eq_false_iff.mpr hcon.2⟩
      rw [scoreSessionMatch_eq, if_neg hq, hnone] at hmatch
      simp at hmatch
    refine ⟨hall, ?_⟩
    have hsome := scoreTokens_some (hayOf g s) (queryParts tokens) hall
    rw [scoreSessionMatch_eq, if_neg hq, hsome]

/-- C2. Every normalized query token must occur verbatim as a substring of
the normalized haystack (contributing `10 + len`) or as an in-order
subsequence of it (contributing `4 + len`); a token satisfying neither test
makes the scorer return `(0, false)`, and on a match the score is the sum of
the per-token contributions (plus the name bonus the code always adds). -/
theorem spec_c2_scorer_tokens (tokens : List String) (g : workspaceGroup) (s : sessionInfo) :
    ((∃ p ∈ queryParts tokens,
        goContains (hayOf g s) p = false ∧ subseq (hayOf g s) p = false) →
      scoreSessionMatch tokens g s = (0, false)) ∧
    ((scoreSessionMatch tokens g s).2 = true →
      (∀ p ∈ queryParts tokens,
        goContains (hayOf g s) p = true ∨ subseq (hayOf g s) p = true) ∧
      (scoreSessionMatch tokens g s).1 =
        tokenSum (hayOf g s) (queryParts tokens) +
          (if goContains (hayOf g s) (normalizeForMatch s.name) then 3 else 0)) :=
  scorerCharacterization tokens g s

/-- Witness for C2 at the repository's own test fixture: the token `xq`
matches neither test and rejects the candidate, while `op la` matches and
scores as the sum of contributions plus the bonus. -/
theorem spec_c2_scorer_tokens_witness :
    scoreSessionMatch ["xq"] ⟨"git", "opasdf", "git/opasdf", "", []⟩
        ⟨"opasdf-lazygit-1", "/root/git/opasdf", false, 0⟩ = (0, false) ∧
    ((∀ p ∈ queryParts ["op", "la"],
        goContains (hayOf ⟨"git", "opasdf", "git/opasdf", "", []⟩
          ⟨"opasdf-lazygit-1", "/root/git/opasdf", false, 0⟩) p = true ∨
        subseq (hayOf ⟨"git", "opasdf", "git/opasdf", "", []⟩
          ⟨"opasdf-lazygit-1", "/root/git/opasdf", false, 0⟩) p = true) ∧
      (scoreSessionMatch ["op", "la"] ⟨"git", "opasdf", "git/opasdf", "", []⟩
          ⟨"opasdf-lazygit-1", "/root/git/opasdf", false, 0⟩).1 =
        tokenSum (hayOf ⟨"git", "opasdf", "git/opasdf", "", []⟩
            ⟨"opasdf-lazygit-1", "/root/git/opasdf", false, 0⟩) (queryParts ["op", "la"]) +
          (if goContains (hayOf ⟨"git", "opasdf", "git/opasdf", "", []⟩
              ⟨"opasdf-lazygit-1", "/root/git/opasdf", false, 0⟩)
              (normalizeForMatch "opasdf-lazygit-1") then 3 else 0)) :=
  ⟨(spec_c2_scorer_tokens ["xq"] ⟨"git", "opasdf", "git/opasdf", "", []⟩
      ⟨"opasdf-lazygit-1", "/root/git/opasdf", false, 0⟩).1
      ⟨"xq", by decide, by decide, by decide⟩,
   (spec_c2_scorer_tokens ["op", "la"] ⟨"git", "opasdf", "git/opasdf", "", []⟩
      ⟨"opasdf-lazygit-1", "/root/git/opasdf", false, 0⟩).2 (by decide)⟩

/-! ### Characterisation of `normalizeForMatch` as word extraction

`normalizeForMatch` equals: take the maximal runs of lowercase
alphanumerics of the lowercased input and join them with single spaces.
This is the bridge used to show the normalized haystack starts with the
normalized session name (claim C9). -/

/-- Maximal runs of kept (lowercase alphanumeric) characters. -/
def words : List Char → List (List Char)
  | [] => []
  | c :: rest =>
    if isAlnumLower c then
      (c :: rest.takeWhile isAlnumLower) :: words (rest.dropWhile isAlnumLower)
    else words rest
termination_by l => l.length
decreasing_by
  · simp only [List.length_cons]
    exact Nat.lt_succ_of_le (List.dropWhile_sublist _).length_le
  · simp only [List.length_cons]; omega

/-- Join word runs with single spaces. -/
def joinW : List (List Char) → List Char
  | [] => []
  | [w] => w
  | w :: ws => w ++ ' ' :: joinW ws

/-- Leading space emitted by `collapseRuns _ false` on a non-kept head. -/
def leadSp (l : List Char) : List Char :=
  match l with
  | [] => []
  | c :: _ => if isAlnumLower c then [] else [' ']

/-- Trailing space emitted by `collapseRuns` after the last word when the
input ends in non-kept characters. -/
def trailSp (l : List Char) : List Char :=
  if words l = [] then []
  else match l.getLast? with
       | some c => if isAlnumLower c then [] else [' ']
       | none => []

theorem alnum_not_space {c : Char} (h : isAlnumLower c = true) : isSpaceGo c = false := by
  by_contra hs
  have hs' : isSpaceGo c = true := by
    cases hx : isSpaceGo c
    · exact absurd hx hs
    · rfl
  simp only [isSpaceGo, Bool.or_eq_true, decide_eq_true_eq] at hs'
  rcases hs' with ((((((rfl | rfl) | rfl) | rfl) | rfl) | rfl) | rfl) | rfl <;> simp [isAlnumLower] at h

theorem space_not_alnum {c : Char} (h : isSpaceGo c = true) : isAlnumLower c = false := by
  cases hx : isAlnumLower c
  · rfl
  · rw [alnum_not_space hx] at h
    exact absurd h (by simp)

theorem words_cons_not {c : Char} (h : isAlnumLower c = false) (l : List Char) :
    words (c :: l) = words l := by
  rw [words]
  simp [h]

theorem words_cons_alnum {c : Char} (h : isAlnumLower c = true) (l : List Char) :
    words (c :: l) = (c :: l.takeWhile isAlnumLower) :: words (l.dropWhile isAlnumLower) := by
  rw [words]
  simp [h]

theorem words_nil_iff (l : List Char) :
    words l = [] ↔ ∀ c ∈ l, isAlnumLower c = false := by
  induction l with
  | nil => simp [words]
  | cons c rest ih =>
    by_cases hc : isAlnumLower c = true
    · rw [words_cons_alnum hc]
      simp [hc]
    · rw [words_cons_not (Bool.eq_false_iff.mpr hc)]
      rw [ih]
      constructor
      · intro h d hd
        rcases List.mem_cons.mp hd with rfl | hd'
        · exact Bool.eq_false_iff.mpr hc
        · exact h d hd'
      · intro h d hd
        exact h d (List.mem_cons_of_mem _ hd)

theorem collapseRuns_allKept {w : List Char} (hw : ∀ c ∈ w, isAlnumLower c = true)
    (m : List Char) : collapseRuns (w ++ m) false = w ++ collapseRuns m false := by
  induction w with
  | nil => simp
  | cons x xs ih =>
    have hx := hw x (List.mem_cons_self _ _)
    simp only [List.cons_append, collapseRuns, hx, if_true]
    exact congrArg (x :: ·) (ih (fun c hc => hw c (List.mem_cons_of_mem _ hc)))

theorem getLast?_some_of_ne {l : List Char} (h : l ≠ []) : ∃ x, l.getLast? = some x := by
  induction l with
  | nil => exact absurd rfl h
  | cons y ys ih =>
    cases ys with
    | nil => exact ⟨y, rfl⟩
    | cons z zs =>
      rw [List.getLast?_cons_cons]
      exact ih (by simp)

theorem getLast?_append_ne {l₁ l₂ : List Char} (h : l₂ ≠ []) :
    (l₁ ++ l₂).getLast? = l₂.getLast? := by
  rw [List.getLast?_append]
  obtain ⟨x, hx⟩ := getLast?_some_of_ne h
  rw [hx]
  rfl

theorem getLast?_mem' {l : List Char} {c : Char} (h : l.getLast? = some c) : c ∈ l := by
  induction l with
  | nil => simp at h
  | cons x xs ih =>
    cases xs with
    | nil =>
      simp at h
      simp [h]
    | cons y ys =>
      rw [List.getLast?_cons_cons] at h
      exact List.mem_cons_of_mem _ (ih h)

/-- Closed form of the collapsing loop in terms of word runs. -/
theorem collapseRuns_closed : ∀ n l, l.length ≤ n →
    collapseRuns l true = joinW (words l) ++ trailSp l ∧
    collapseRuns l false = leadSp l ++ (joinW (words l) ++ trailSp l) := by
  intro n
  induction n with
  | zero =>
    intro l hl
    have : l = [] := List.eq_nil_of_length_eq_zero (Nat.le_zero.mp hl)
    subst this
    simp [collapseRuns, words, joinW, leadSp, trailSp]
  | succ n ih =>
    intro l hl
    cases l with
    | nil => simp [collapseRuns, words, joinW, leadSp, trailSp]
    | cons c rest =>
      have hrest : rest.length ≤ n := by
        simp only [List.length_cons] at hl
        omega
      by_cases hc : isAlnumLower c = true
      · -- kept head: both flags produce c and continue with flag false
        have hsplit : rest = rest.takeWhile isAlnumLower ++ rest.dropWhile isAlnumLower :=
          (List.takeWhile_append_dropWhile (p := isAlnumLower) (l := rest)).symm
        have hkept : ∀ x ∈ rest.takeWhile isAlnumLower, isAlnumLower x = true :=
          fun x hx => List.mem_takeWhile_imp hx
        have hcol : collapseRuns (c :: rest) true = c :: (rest.takeWhile isAlnumLower ++
            collapseRuns (rest.dropWhile isAlnumLower) false) ∧
            collapseRuns (c :: rest) false = c :: (rest.takeWhile isAlnumLower ++
            collapseRuns (rest.dropWhile isAlnumLower) false) := by
          constructor <;>
          · simp only [collapseRuns, hc, if_true]
            rw [show collapseRuns rest false = collapseRuns (rest.takeWhile isAlnumLower ++
                rest.dropWhile isAlnumLower) false from by rw [← hsplit]]
            rw [collapseRuns_allKept hkept]
        have hwords := words_cons_alnum hc rest
        have hlead : leadSp (c :: rest) = [] := by simp [leadSp, hc]
        -- now case on the dropped remainder
        cases hd : rest.dropWhile isAlnumLower with
        | nil =>
          -- the whole list is one kept run
          have hall : ∀ x ∈ c :: rest, isAlnumLower x = true := by
            intro x hx
            rcases List.mem_cons.mp hx with rfl | hx'
            · exact hc
            · exact List.dropWhile_eq_nil_iff.mp hd x hx'
          have hlast : ∃ x, (c :: rest).getLast? = some x ∧ isAlnumLower x = true := by
            cases hg : (c :: rest).getLast? with
            | none => simp at hg
            | some x => exact ⟨x, rfl, hall x (getLast?_mem' hg)⟩
          have htrail : trailSp (c :: rest) = [] := by
            obtain ⟨x, hg, hxa⟩ := hlast
            simp [trailSp, hg, hxa]
          obtain ⟨h1, h2⟩ := hcol
          constructor
          · rw [h1, hd, htrail, hwords, hd]
            simp [collapseRuns, joinW, words]
          · rw [h2, hd, htrail, hlead, hwords, hd]
            simp [collapseRuns, joinW, words]
        | cons e d' =>
          have hne : isAlnumLower e = false := by
            have := List.head_dropWhile_not (p := isAlnumLower) (l := rest)
            rw [hd] at this
            simpa using this (by simp)
          have hd'len : d'.length ≤ n := by
            have h1 : (rest.dropWhile isAlnumLower).length ≤ rest.length :=
              (List.dropWhile_sublist _).length_le
            rw [hd] at h1
            simp only [List.length_cons] at h1
            omega
          obtain ⟨ihd1, _⟩ := ih d' hd'len
          have hcd : collapseRuns (rest.dropWhile isAlnumLower) false =
              ' ' :: collapseRuns d' true := by
            rw [hd]
            simp [collapseRuns, hne]
          have hwd : words (rest.dropWhile isAlnumLower) = words d' := by
            rw [hd, words_cons_not hne]
          -- last char of the full list is the last char of e :: d'
          have hlast : (c :: rest).getLast? = (e :: d').getLast? := by
            conv_lhs => rw [show c :: rest = (c :: rest.takeWhile isAlnumLower) ++ (e :: d') from by
              rw [← hd]; simp [hsplit.symm]]
            exact getLast?_append_ne (by simp)
          obtain ⟨h1, h2⟩ := hcol
          by_cases hwd' : words d' = []
          · -- tail contains no further kept characters
            have hd'all : ∀ x ∈ d', isAlnumLower x = false := (words_nil_iff d').mp hwd'
            have htail : ∃ x, (e :: d').getLast? = some x ∧ isAlnumLower x = false := by
              cases hg : (e :: d').getLast? with
              | none => simp at hg
              | some x =>
                refine ⟨x, rfl, ?_⟩
                rcases List.mem_cons.mp (getLast?_mem' hg) with rfl | hx'
                · exact hne
                · exact hd'all x hx'
            obtain ⟨x, hg, hxn⟩ := htail
            have htrail : trailSp (c :: rest) = [' '] := by
              simp [trailSp, hwords, hlast, hg, hxn]
            have htraild' : trailSp d' = [] := by simp [trailSp, hwd']
            have hjw : joinW (words (c :: rest)) = c :: rest.takeWhile isAlnumLower := by
              rw [hwords, hwd, hwd']
              simp [joinW]
            constructor
            · rw [h1, hcd, ihd1, hwd', htraild', hjw, htrail]
              simp [joinW]
            · rw [h2, hcd, ihd1, hwd', htraild', hjw, htrail, hlead]
              simp [joinW]
          · -- further words follow: the separating space is the join space
            have htrail : trailSp (c :: rest) = trailSp d' := by
              have hwne : words (c :: rest) ≠ [] := by rw [hwords]; simp
              have hd'ne : d' ≠ [] := by
                intro hx
                rw [hx] at hwd'
                exact hwd' (by simp [words])
              have hlast2 : (e :: d').getLast? = d'.getLast? := by
                have : e :: d' = [e] ++ d' := by simp
                rw [this]
                exact getLast?_append_ne hd'ne
              simp only [trailSp, hlast, hlast2]
              simp [hwords, hwd']
            have hjw : joinW (words (c :: rest)) =
                (c :: rest.takeWhile isAlnumLower) ++ ' ' :: joinW (words d') := by
              rw [hwords, hwd]
              cases hw : words d' with
              | nil => exact absurd hw hwd'
              | cons w ws => simp [joinW]
            constructor
            · rw [h1, hcd, ihd1, hjw, htrail]
              simp
            · rw [h2, hcd, ihd1, hjw, htrail, hlead]
              simp
      · -- dropped head: a single space is emitted when the flag is false
        have hc' : isAlnumLower c = false := Bool.eq_false_iff.mpr hc
        obtain ⟨ih1, _⟩ := ih rest hrest
        have hw : words (c :: rest) = words rest := words_cons_not hc' rest
        have htr : trailSp (c :: rest) = trailSp rest := by
          cases hr : rest with
          | nil => simp [trailSp, words_cons_not hc', words]
          | cons y ys =>
            have hlast : (c :: y :: ys).getLast? = (y :: ys).getLast? :=
              List.getLast?_cons_cons
            simp only [trailSp, words_cons_not hc', hlast]
        have hcol1 : collapseRuns (c :: rest) true = collapseRuns rest true := by
          simp [collapseRuns, hc']
        have hcol2 : collapseRuns (c :: rest) false = ' ' :: collapseRuns rest true := by
          simp [collapseRuns, hc']
        constructor
        · rw [hcol1, ih1, hw, htr]
        · rw [hcol2, ih1, hw, htr]
          simp [leadSp, hc']

theorem trailSp_cases (l : List Char) : trailSp l = [] ∨ trailSp l = [' '] := by
  unfold trailSp
  by_cases h : words l = []
  · simp [h]
  · simp only [h, if_false]
    cases l.getLast? with
    | none => simp
    | some c => by_cases hca : isAlnumLower c = true <;> simp [hca]

theorem joinW_cons (w : List Char) (ws : List (List Char)) :
    joinW (w :: ws) = w ++ (match ws with | [] => [] | _ :: _ => ' ' :: joinW ws) := by
  cases ws with
  | nil => simp [joinW]
  | cons v vs => simp [joinW]

/-- Every extracted word is a nonempty run of kept characters. -/
theorem words_forall : ∀ n l, l.length ≤ n →
    ∀ w ∈ words l, w ≠ [] ∧ ∀ c ∈ w, isAlnumLower c = true := by
  intro n
  induction n with
  | zero =>
    intro l hl
    have : l = [] := List.eq_nil_of_length_eq_zero (Nat.le_zero.mp hl)
    subst this
    simp [words]
  | succ n ih =>
    intro l hl
    cases l with
    | nil => simp [words]
    | cons c rest =>
      have hrest : rest.length ≤ n := by simp only [List.length_cons] at hl; omega
      by_cases hc : isAlnumLower c = true
      · rw [words_cons_alnum hc]
        intro w hw
        rcases List.mem_cons.mp hw with rfl | hw'
        · refine ⟨by simp, ?_⟩
          intro x hx
          rcases List.mem_cons.mp hx with rfl | hx'
          · exact hc
          · exact List.mem_takeWhile_imp hx'
        · have hlen : (rest.dropWhile isAlnumLower).length ≤ n :=
            le_trans (List.dropWhile_sublist _).length_le hrest
          exact ih _ hlen w hw'
      · rw [words_cons_not (Bool.eq_false_iff.mpr hc)]
        exact ih rest hrest

theorem joinW_last_alnum : ∀ (L : List (List Char)),
    (∀ w ∈ L, w ≠ [] ∧ ∀ c ∈ w, isAlnumLower c = true) → L ≠ [] →
    ∃ x, (joinW L).getLast? = some x ∧ isAlnumLower x = true := by
  intro L
  induction L with
  | nil => intro _ h; exact absurd rfl h
  | cons w ws ih =>
    intro hall _
    obtain ⟨hwne, hwal⟩ := hall w (List.mem_cons_self _ _)
    cases ws with
    | nil =>
      obtain ⟨x, hx⟩ := getLast?_some_of_ne hwne
      exact ⟨x, by simpa [joinW] using hx, hwal x (getLast?_mem' hx)⟩
    | cons v vs =>
      obtain ⟨x, hx, hxa⟩ := ih (fun u hu => hall u (List.mem_cons_of_mem _ hu)) (by simp)
      refine ⟨x, ?_, hxa⟩
      have hjw : joinW (w :: v :: vs) = w ++ ' ' :: joinW (v :: vs) := by simp [joinW]
      have hne : joinW (v :: vs) ≠ [] := by
        intro h0
        rw [h0] at hx
        simp at hx
      rw [hjw, getLast?_append_ne (by simp)]
      have : (' ' :: joinW (v :: vs)) = [' '] ++ joinW (v :: vs) := by simp
      rw [this, getLast?_append_ne hne]
      exact hx

theorem trimRight_append_space (l : List Char) : trimRight (l ++ [' ']) = trimRight l := by
  simp [trimRight, List.dropWhile, isSpaceGo]

theorem trimRight_eq_self_of_last {l : List Char} {x : Char}
    (h : l.getLast? = some x) (hx : isSpaceGo x = false) : trimRight l = l := by
  unfold trimRight
  cases hr : l.reverse with
  | nil =>
    have : l = [] := by simpa using congrArg List.reverse hr
    simp [this]
  | cons r rs =>
    have hhead : l.reverse.head? = l.getLast? := List.head?_reverse l
    rw [hr] at hhead
    rw [h] at hhead
    have : r = x := by simpa using hhead
    subst this
    rw [List.dropWhile_cons_of_neg (by simp [hx])]
    rw [← hr, List.reverse_reverse]

theorem trimLeft_cons_space (l : List Char) : trimLeft (' ' :: l) = trimLeft l := by
  simp [trimLeft, List.dropWhile, isSpaceGo]

theorem trimLeft_eq_self_of_head {l : List Char} {x : Char}
    (h : l.head? = some x) (hx : isSpaceGo x = false) : trimLeft l = l := by
  cases l with
  | nil => simp [trimLeft]
  | cons c rest =>
    have : c = x := by simpa using h
    subst this
    unfold trimLeft
    rw [List.dropWhile_cons_of_neg (by simp [hx])]

/-- The final trim of `normalizeForMatch` turns the collapsed text into the
space-joined list of kept-character runs. -/
theorem trim_collapse (l : List Char) :
    goTrimSpace (collapseRuns l false) = joinW (words l) := by
  obtain ⟨_, h2⟩ := collapseRuns_closed l.length l le_rfl
  rw [h2]
  cases hw : words l with
  | nil =>
    have htrail : trailSp l = [] := by simp [trailSp, hw]
    rw [htrail]
    cases hl : l with
    | nil => simp [leadSp, joinW, goTrimSpace, trimLeft, trimRight]
    | cons c rest =>
      have hcna : isAlnumLower c = false := by
        by_contra hca
        have hca' : isAlnumLower c = true := by
          cases hx : isAlnumLower c
          · exact absurd hx hca
          · rfl
        rw [hl, words_cons_alnum hca'] at hw
        simp at hw
      simp only [leadSp, hcna, joinW, hl]
      simp only [Bool.false_eq_true, if_false, List.append_nil]
      decide
  | cons w ws =>
    have hfacts : ∀ u ∈ words l, u ≠ [] ∧ ∀ c ∈ u, isAlnumLower c = true :=
      words_forall l.length l le_rfl
    have hjlast := joinW_last_alnum (words l) hfacts (by rw [hw]; simp)
    obtain ⟨x, hx, hxa⟩ := hjlast
    have hjne : joinW (words l) ≠ [] := by
      intro h0
      rw [h0] at hx
      simp at hx
    -- step 1: the trailing space (if any) is removed by trimRight
    have step1 : goTrimSpace (leadSp l ++ (joinW (words l) ++ trailSp l)) =
        trimLeft (trimRight (leadSp l ++ joinW (words l))) := by
      rcases trailSp_cases l with ht | ht
      · rw [ht]
        simp [goTrimSpace]
      · rw [ht]
        unfold goTrimSpace
        rw [show leadSp l ++ (joinW (words l) ++ [' ']) =
            (leadSp l ++ joinW (words l)) ++ [' '] by simp]
        rw [trimRight_append_space]
    -- step 2: no trailing space remains
    have step2 : trimRight (leadSp l ++ joinW (words l)) = leadSp l ++ joinW (words l) := by
      refine trimRight_eq_self_of_last (x := x) ?_ (alnum_not_space hxa)
      rw [getLast?_append_ne hjne]
      exact hx
    -- step 3: the leading space (if any) and nothing else is removed by trimLeft
    have hwne : w ≠ [] := (hfacts w (by rw [hw]; simp)).1
    obtain ⟨wc, w', rfl⟩ : ∃ wc w', w = wc :: w' := by
      cases w with
      | nil => exact absurd rfl hwne
      | cons a b => exact ⟨a, b, rfl⟩
    have hwca : isAlnumLower wc = true :=
      (hfacts (wc :: w') (by rw [hw]; exact List.mem_cons_self _ _)).2 wc
        (List.mem_cons_self _ _)
    have hjhead : ∃ t, joinW (words l) = wc :: t := by
      rw [hw]
      cases ws with
      | nil => exact ⟨w', by simp [joinW]⟩
      | cons v vs => exact ⟨w' ++ ' ' :: joinW (v :: vs), by simp [joinW]⟩
    obtain ⟨t, hjw⟩ := hjhead
    have step3 : trimLeft (leadSp l ++ joinW (words l)) = joinW (words l) := by
      have hself : trimLeft (joinW (words l)) = joinW (words l) := by
        refine trimLeft_eq_self_of_head (x := wc) ?_ (alnum_not_space hwca)
        rw [hjw]
        rfl
      cases hld : leadSp l with
      | nil => simpa using hself
      | cons c rest =>
        have : c = ' ' ∧ rest = [] := by
          unfold leadSp at hld
          cases l with
          | nil => simp at hld
          | cons a b =>
            by_cases ha : isAlnumLower a = true <;> simp [ha] at hld
            exact ⟨hld.1.symm, hld.2⟩
        obtain ⟨rfl, rfl⟩ := this
        rw [List.singleton_append, trimLeft_cons_space]
        exact hself
    rw [← hw] at *
    rw [step1, step2, step3]

theorem takeWhile_append_not {p : Char → Bool} {d : Char} (hd : p d = false)
    (x y : List Char) : (x ++ d :: y).takeWhile p = x.takeWhile p := by
  induction x with
  | nil => simp [List.takeWhile, hd]
  | cons c x' ih =>
    simp only [List.cons_append, List.takeWhile]
    cases hc : p c
    · simp
    · simp [ih]

theorem dropWhile_append_not {p : Char → Bool} {d : Char} (hd : p d = false)
    (x y : List Char) : (x ++ d :: y).dropWhile p = x.dropWhile p ++ d :: y := by
  induction x with
  | nil => simp [List.dropWhile, hd]
  | cons c x' ih =>
    simp only [List.cons_append, List.dropWhile]
    cases hc : p c
    · simp
    · simp [ih]

/-- Word extraction splits at any non-kept character. -/
theorem words_append_break {d : Char} (hd : isAlnumLower d = false) :
    ∀ n x, x.length ≤ n → ∀ y, words (x ++ d :: y) = words x ++ words y := by
  intro n
  induction n with
  | zero =>
    intro x hx y
    have : x = [] := List.eq_nil_of_length_eq_zero (Nat.le_zero.mp hx)
    subst this
    simp [words_cons_not hd, words]
  | succ n ih =>
    intro x hx y
    cases x with
    | nil => simp [words_cons_not hd, words]
    | cons c x' =>
      have hx' : x'.length ≤ n := by simp only [List.length_cons] at hx; omega
      by_cases hc : isAlnumLower c = true
      · rw [List.cons_append, words_cons_alnum hc, words_cons_alnum hc]
        rw [takeWhile_append_not hd, dropWhile_append_not hd]
        rw [ih _ (le_trans (List.dropWhile_sublist _).length_le hx')]
        simp
      · have hc' : isAlnumLower c = false := Bool.eq_false_iff.mpr hc
        rw [List.cons_append, words_cons_not hc', words_cons_not hc']
        exact ih x' hx' y

theorem words_app_left {pre X : List Char} (h : ∀ c ∈ pre, isAlnumLower c = false) :
    words (pre ++ X) = words X := by
  induction pre with
  | nil => simp
  | cons c rest ih =>
    rw [List.cons_append, words_cons_not (h c (List.mem_cons_self _ _))]
    exact ih (fun u hu => h u (List.mem_cons_of_mem _ hu))

theorem words_app_right {Y suf : List Char} (h : ∀ c ∈ suf, isAlnumLower c = false) :
    words (Y ++ suf) = words Y := by
  cases suf with
  | nil => simp
  | cons e suf' =>
    rw [words_append_break (h e (List.mem_cons_self _ _)) Y.length Y le_rfl]
    rw [(words_nil_iff suf').mpr (fun u hu => h u (List.mem_cons_of_mem _ hu))]
    simp

/-- `TrimSpace` only removes whitespace from the two ends. -/
theorem trim_decomp (l : List Char) :
    ∃ pre suf, l = pre ++ goTrimSpace l ++ suf ∧
      (∀ c ∈ pre, isSpaceGo c = true) ∧ (∀ c ∈ suf, isSpaceGo c = true) := by
  refine ⟨(trimRight l).takeWhile isSpaceGo, (l.reverse.takeWhile isSpaceGo).reverse,
    ?_, fun c hc => List.mem_takeWhile_imp hc,
    fun c hc => List.mem_takeWhile_imp (List.mem_reverse.mp hc)⟩
  have h1 : l = trimRight l ++ (l.reverse.takeWhile isSpaceGo).reverse := by
    have := congrArg List.reverse (List.takeWhile_append_dropWhile
      (p := isSpaceGo) (l := l.reverse))
    rw [List.reverse_append, List.reverse_reverse] at this
    exact this.symm
  have h2 : trimRight l = (trimRight l).takeWhile isSpaceGo ++ goTrimSpace l := by
    unfold goTrimSpace trimLeft
    exact (List.takeWhile_append_dropWhile (p := isSpaceGo) (l := trimRight l)).symm
  conv_lhs => rw [h1]
  rw [← h2]

theorem lower_space_id {c : Char} (h : isSpaceGo c = true) : goToLower c = c := by
  simp only [isSpaceGo, Bool.or_eq_true, decide_eq_true_eq] at h
  rcases h with ((((((rfl | rfl) | rfl) | rfl) | rfl) | rfl) | rfl) | rfl <;> rfl

theorem map_lower_spaces {l : List Char} (h : ∀ c ∈ l, isSpaceGo c = true) :
    l.map goToLower = l := by
  induction l with
  | nil => simp
  | cons c rest ih =>
    rw [List.map_cons, lower_space_id (h c (List.mem_cons_self _ _))]
    rw [ih (fun u hu => h u (List.mem_cons_of_mem _ hu))]

/-- Trimming before lowercasing does not change the extracted words. -/
theorem words_trim_lower (l : List Char) :
    words ((goTrimSpace l).map goToLower) = words (l.map goToLower) := by
  obtain ⟨pre, suf, hdec, hpre, hsuf⟩ := trim_decomp l
  conv_rhs => rw [hdec]
  rw [List.append_assoc, List.map_append, List.map_append]
  rw [map_lower_spaces hpre, map_lower_spaces hsuf]
  rw [words_app_left (fun c hc => space_not_alnum (hpre c hc))]
  rw [words_app_right (fun c hc => space_not_alnum (hsuf c hc))]

/-- `normalizeForMatch` extracts the kept-character words of the lowercased
input and joins them with single spaces. -/
theorem normalizeForMatch_data (s : String) :
    (normalizeForMatch s).data = joinW (words (s.data.map goToLower)) := by
  rw [← words_trim_lower]
  unfold normalizeForMatch
  by_cases ht : (goTrimSpace s.data).map goToLower = []
  · rw [ht]
    simp [words, joinW]
  · simp only [ht, if_neg ht]
    exact trim_collapse _

theorem joinW_append (A B : List (List Char)) (hA : A ≠ []) :
    joinW (A ++ B) = joinW A ++ (match B with | [] => [] | _ :: _ => ' ' :: joinW B) := by
  induction A with
  | nil => exact absurd rfl hA
  | cons w A' ih =>
    cases A' with
    | nil =>
      rw [List.singleton_append, joinW_cons]
      simp [joinW]
    | cons v A'' =>
      have h1 : joinW (w :: v :: A'' ++ B) = w ++ ' ' :: joinW (v :: A'' ++ B) := by
        simp [joinW]
      have h2 : joinW (w :: v :: A'') = w ++ ' ' :: joinW (v :: A'') := by
        simp [joinW]
      rw [h1, ih (by simp), h2]
      simp

theorem isPrefixOf_of_pfx : ∀ (x l : List Char), x <+: l → x.isPrefixOf l = true := by
  intro x
  induction x with
  | nil => intro l _; cases l <;> rfl
  | cons a x' ih =>
    intro l hp
    obtain ⟨t, ht⟩ := hp
    subst ht
    simp only [List.cons_append, List.isPrefixOf, beq_self_eq_true, Bool.true_and]
    exact ih _ ⟨t, rfl⟩

theorem pfx_listContains {x l : List Char} (h : x <+: l) : listContains x l = true := by
  cases l with
  | nil =>
    obtain ⟨t, ht⟩ := h
    have hx : x = [] := (List.append_eq_nil.mp ht).1
    subst hx
    rfl
  | cons c t =>
    have := isPrefixOf_of_pfx x (c :: t) h
    simp [listContains, this]

theorem data_joinSpace_cons (a : String) (b : String) (rest : List String) :
    (joinSpace (a :: b :: rest)).data = a.data ++ ' ' :: (joinSpace (b :: rest)).data := by
  show ((a ++ " " ++ joinSpace (b :: rest))).data = _
  simp [String.data_append]

/-- C9. For every group and every session whose name contains at least one
alphanumeric character, the normalized haystack begins with the normalized
session name, so the `+3` session-name bonus condition of
`scoreSessionMatch` always holds, and whenever the scorer reports a match
the score is the sum of the per-token contributions plus 3 — the bonus
never distinguishes one candidate from another. -/
theorem spec_c9_bonus_always (g : workspaceGroup) (s : sessionInfo)
    (h : ∃ c ∈ s.name.data, isAlnumLower (goToLower c) = true) :
    (normalizeForMatch s.name).data <+: (hayOf g s).data ∧
    goContains (hayOf g s) (normalizeForMatch s.name) = true ∧
    (∀ tokens, (scoreSessionMatch tokens g s).2 = true →
      (scoreSessionMatch tokens g s).1 =
        tokenSum (hayOf g s) (queryParts tokens) + 3) := by
  have hdata : (joinSpace [s.name, g.name, g.workspace, g.repo, s.workdir]).data =
      s.name.data ++ ' ' :: (joinSpace [g.name, g.workspace, g.repo, s.workdir]).data :=
    data_joinSpace_cons _ _ _
  have hlowsp : goToLower ' ' = ' ' := rfl
  have hmap : (s.name.data ++ ' ' :: (joinSpace [g.name, g.workspace, g.repo,
      s.workdir]).data).map goToLower =
      s.name.data.map goToLower ++ ' ' ::
        (joinSpace [g.name, g.workspace, g.repo, s.workdir]).data.map goToLower := by
    rw [List.map_append, List.map_cons, hlowsp]
  have hsplit : words ((joinSpace [s.name, g.name, g.workspace, g.repo,
      s.workdir]).data.map goToLower) =
      words (s.name.data.map goToLower) ++
      words ((joinSpace [g.name, g.workspace, g.repo, s.workdir]).data.map goToLower) := by
    rw [hdata, hmap]
    exact words_append_break (by decide) _ _ le_rfl _
  have hWn : words (s.name.data.map goToLower) ≠ [] := by
    intro h0
    obtain ⟨c, hc, hca⟩ := h
    have := (words_nil_iff _).mp h0 (goToLower c) (List.mem_map_of_mem _ hc)
    rw [hca] at this
    exact absurd this (by simp)
  have hpfx : (normalizeForMatch s.name).data <+: (hayOf g s).data := by
    rw [normalizeForMatch_data]
    show _ <+: (normalizeForMatch _).data
    rw [normalizeForMatch_data, hsplit, joinW_append _ _ hWn]
    exact ⟨_, rfl⟩
  have hcont : goContains (hayOf g s) (normalizeForMatch s.name) = true :=
    pfx_listContains hpfx
  refine ⟨hpfx, hcont, ?_⟩
  intro tokens hm
  obtain ⟨_, hscore⟩ := (scorerCharacterization tokens g s).2 hm
  rw [hscore, hcont]
  simp

/-- Witness for C9 at the test fixture group and session. -/
theorem spec_c9_bonus_always_witness :
    ((normalizeForMatch "opasdf-lazygit-1").data <+:
      (hayOf ⟨"git", "opasdf", "git/opasdf", "", []⟩
        ⟨"opasdf-lazygit-1", "/root/git/opasdf", false, 0⟩).data) ∧
    goContains (hayOf ⟨"git", "opasdf", "git/opasdf", "", []⟩
        ⟨"opasdf-lazygit-1", "/root/git/opasdf", false, 0⟩)
      (normalizeForMatch "opasdf-lazygit-1") = true ∧
    (scoreSessionMatch ["op", "la"] ⟨"git", "opasdf", "git/opasdf", "", []⟩
        ⟨"opasdf-lazygit-1", "/root/git/opasdf", false, 0⟩).1 =
      tokenSum (hayOf ⟨"git", "opasdf", "git/opasdf", "", []⟩
          ⟨"opasdf-lazygit-1", "/root/git/opasdf", false, 0⟩)
        (queryParts ["op", "la"]) + 3 :=
  have h := spec_c9_bonus_always ⟨"git", "opasdf", "git/opasdf", "", []⟩
    ⟨"opasdf-lazygit-1", "/root/git/opasdf", false, 0⟩ (by decide)
  ⟨h.1, h.2.1, h.2.2 ["op", "la"] (by decide)⟩

/-! ### Path handling: `filepath.Clean`, `filepath.Join`, `hasPathPrefix` -/

/-- Split on every `/` (the unix `os.PathSeparator`), keeping empty
components; `acc` holds the current component reversed. -/
def splitSlashAux (acc : List Char) : List Char → List (List Char)
  | [] => [acc.reverse]
  | c :: rest =>
    if c = '/' then acc.reverse :: splitSlashAux [] rest
    else splitSlashAux (c :: acc) rest

/-- Components of a unix path. -/
def splitSlash (l : List Char) : List (List Char) := splitSlashAux [] l

/-- Models Go `path/filepath.Clean`'s lexical processing, component by
component: empty and `.` components are dropped; `..` pops the last kept
component, is a no-op at the root of a rooted path, and is kept at the
front of a relative path. `stack` holds the kept components, most recent
first. -/
def cleanStack (rooted : Bool) : List (List Char) → List (List Char) → List (List Char)
  | stack, [] => stack
  | stack, comp :: rest =>
    if comp = [] || comp = ['.'] then cleanStack rooted stack rest
    else if comp = ['.', '.'] then
      if rooted then cleanStack rooted stack.tail rest
      else if stack = [] || stack.head? = some ['.', '.'] then
        cleanStack rooted (['.', '.'] :: stack) rest
      else cleanStack rooted stack.tail rest
    else cleanStack rooted (comp :: stack) rest

/-- Join components with `/`. -/
def joinSlash : List (List Char) → List Char
  | [] => []
  | [w] => w
  | w :: ws => w ++ '/' :: joinSlash ws

/-- Go `path/filepath.Clean` (unix): a rooted path keeps its leading `/`;
a relative path whose components all cancel cleans to `"."`. -/
def goClean (s : String) : String :=
  if s.data = [] then "."
  else if s.data.head? = some '/' then
    String.mk ('/' :: joinSlash (cleanStack true [] (splitSlash s.data)).reverse)
  else if (cleanStack false [] (splitSlash s.data)).reverse = [] then "."
  else String.mk (joinSlash (cleanStack false [] (splitSlash s.data)).reverse)

/-- Go `path/filepath.Join` of two elements: empty elements are dropped,
the rest joined with `/` and cleaned; all-empty input gives `""`. -/
def goJoin (a b : String) : String :=
  if a = "" && b = "" then ""
  else if a = "" then goClean b
  else if b = "" then goClean a
  else goClean (a ++ "/" ++ b)

/-- `hasPathPrefix` from `main.go`: clean and trim both paths, then test
equality or separator-aligned text inclusion. -/
def hasPathPrefix (path pfx : String) : Bool :=
  if goClean (trimS path) = "" || goClean (trimS pfx) = "" then false
  else if goClean (trimS path) = goClean (trimS pfx) then true
  else ((goClean (trimS pfx)).data ++ ['/']).isPrefixOf (goClean (trimS path)).data

/-! ### Grouping: session assignment and per-group sorting -/

/-- The synthetic root group of `discoverRepoGroups` (`main.go`). -/
def rootGroup : workspaceGroup :=
  { workspace := "root", repo := "root", name := "root", path := "/", sessions := [] }

/-- The matching loop of `groupedSessions` (`main.go`): scan groups from
index 1 keeping the index of the longest trimmed path that is a path-aligned
prefix of the workdir; paths `""` and `"/"` are skipped. The accumulator is
`(best, bestLen)` starting at `(0, 0)` — index 0 is the root fallback. -/
def assignLoop (wd : String) : List workspaceGroup → Nat → Nat × Nat → Nat × Nat
  | [], _, acc => acc
  | g :: rest, i, acc =>
    let gp := trimS g.path
    if gp = "" || gp = "/" then assignLoop wd rest (i + 1) acc
    else if hasPathPrefix wd gp && decide (acc.2 < gp.utf8ByteSize) then
      assignLoop wd rest (i + 1) (i, gp.utf8ByteSize)
    else assignLoop wd rest (i + 1) acc

/-- Index of the group a session with working directory `wd` is assigned to. -/
def assignIndex (groups : List workspaceGroup) (wd : String) : Nat :=
  (assignLoop wd groups.tail 1 (0, 0)).1

/-- `groups[i].Sessions = append(groups[i].Sessions, s)`. -/
def appendSessionAt : List workspaceGroup → Nat → sessionInfo → List workspaceGroup
  | [], _, _ => []
  | g :: rest, 0, s => { g with sessions := g.sessions ++ [s] } :: rest
  | g :: rest, i + 1, s => g :: appendSessionAt rest i s

/-- The session-distribution loop of `groupedSessions`. -/
def attachLoop : List sessionInfo → List workspaceGroup → List workspaceGroup
  | [], groups => groups
  | s :: rest, groups =>
    attachLoop rest (appendSessionAt groups (assignIndex groups s.workdir) s)

/-- Comparator of the per-group session sort in `groupedSessions`
(`sort.Slice` by `Name` ascending): `a` may precede `b` iff `b.Name` is not
strictly smaller. -/
def nameLE (a b : sessionInfo) : Prop := strLt b.name a.name = false

instance : DecidableRel nameLE :=
  fun a b => inferInstanceAs (Decidable (strLt b.name a.name = false))

/-- The per-group sort of `groupedSessions`. -/
def sortSessions (l : List sessionInfo) : List sessionInfo := List.insertionSort nameLE l

/-- `Attach`: distribute the reported sessions over the group skeleton, then
sort each group's sessions by name (`groupedSessions`, `main.go`). -/
def attachSessions (groups : List workspaceGroup) (sessions : List sessionInfo) :
    List workspaceGroup :=
  (attachLoop sessions groups).map (fun g => { g with sessions := sortSessions g.sessions })

/-- Comparator of the group sort in `discoverRepoGroups` (`sort.Slice` of
`groups[1:]` by `Name` ascending). -/
def groupNameLE (a b : workspaceGroup) : Prop := strLt b.name a.name = false

instance : DecidableRel groupNameLE :=
  fun a b => inferInstanceAs (Decidable (strLt b.name a.name = false))

/-- `discoverRepoGroups` from `main.go`, with the remote git root and the
result of the directory enumeration passed explicitly. The Go function
returns a `nil` error on every path: an enumeration failure yields the
root group alone, so the model's result is always `Except.ok`. -/
def discoverRepoGroups (root : String) (reposResult : Except String (List String)) :
    Except String (List workspaceGroup) :=
  match reposResult with
  | .error _ => Except.ok [rootGroup]
  | .ok repos =>
    Except.ok (rootGroup :: List.insertionSort groupNameLE
      (repos.map (fun repo =>
        { workspace := "git", repo := repo, name := "git/" ++ repo,
          path := goJoin root repo, sessions := ([] : List sessionInfo) })))

/-! ### Lexicographic order facts for the Go string comparator -/

theorem lexLt_irrefl : ∀ l : List Char, lexLt l l = false := by
  intro l
  induction l with
  | nil => rfl
  | cons c rest ih => simp [lexLt, ih]

theorem lexLt_trans : ∀ a b c : List Char,
    lexLt a b = true → lexLt b c = true → lexLt a c = true := by
  intro a
  induction a with
  | nil =>
    intro b c hab hbc
    cases b with
    | nil => simp [lexLt] at hab
    | cons y ys =>
      cases c with
      | nil => simp [lexLt] at hbc
      | cons z zs => simp [lexLt]
  | cons x xs ih =>
    intro b c hab hbc
    cases b with
    | nil => simp [lexLt] at hab
    | cons y ys =>
      cases c with
      | nil => simp [lexLt] at hbc
      | cons z zs =>
        simp only [lexLt] at hab hbc ⊢
        by_cases hxy : x < y
        · by_cases hyz : y < z
          · simp [lt_trans hxy hyz]
          · by_cases hzy : z < y
            · simp [hyz, hzy] at hbc
            · have : y = z := le_antisymm (not_lt.mp hzy) (not_lt.mp hyz)
              subst this
              simp [hxy]
        · by_cases hyx : y < x
          · simp [hxy, hyx] at hab
          · have : x = y := le_antisymm (not_lt.mp hyx) (not_lt.mp hxy)
            subst this
            simp only [lt_irrefl, if_false] at hab
            by_cases hyz : x < z
            · simp [hyz]
            · by_cases hzy : z < x
              · simp [hyz, hzy] at hbc
              · have : x = z := le_antisymm (not_lt.mp hzy) (not_lt.mp hyz)
                subst this
                simp only [lt_irrefl, if_false] at hbc ⊢
                exact ih ys zs hab hbc

theorem lexLt_connex : ∀ a b : List Char,
    lexLt a b = false → lexLt b a = false → a = b := by
  intro a
  induction a with
  | nil =>
    intro b hab _
    cases b with
    | nil => rfl
    | cons y ys => simp [lexLt] at hab
  | cons x xs ih =>
    intro b hab hba
    cases b with
    | nil => simp [lexLt] at hba
    | cons y ys =>
      simp only [lexLt] at hab hba
      by_cases hxy : x < y
      · simp [hxy] at hab
      · by_cases hyx : y < x
        · simp [hxy, hyx] at hba
        · have hx : x = y := le_antisymm (not_lt.mp hyx) (not_lt.mp hxy)
          subst hx
          simp only [lt_irrefl, if_false] at hab hba
          rw [ih ys hab hba]

theorem lexLt_asymm {a b : List Char} (h : lexLt a b = true) : lexLt b a = false := by
  cases hba : lexLt b a
  · rfl
  · have := lexLt_trans a b a h hba
    rw [lexLt_irrefl] at this
    exact absurd this (by simp)

theorem lexLt_cases (a b : List Char) :
    lexLt a b = true ∨ a = b ∨ lexLt b a = true := by
  cases hab : lexLt a b
  · cases hba : lexLt b a
    · exact Or.inr (Or.inl (lexLt_connex a b hab hba))
    · exact Or.inr (Or.inr rfl)
  · exact Or.inl rfl

theorem strLt_connex {a b : String} (hab : strLt a b = false) (hba : strLt b a = false) :
    a = b := by
  have := lexLt_connex a.data b.data hab hba
  cases a
  cases b
  simp only [] at this
  rw [show _ = _ from this]

theorem strLe_trans {a b c : String} (hab : strLt b a = false) (hbc : strLt c b = false) :
    strLt c a = false := by
  cases hca : strLt c a
  · rfl
  · rcases lexLt_cases a.data b.data with h1 | h1 | h1
    · have := lexLt_trans c.data a.data b.data hca h1
      rw [show lexLt c.data b.data = strLt c b from rfl, hbc] at this
      exact absurd this (by simp)
    · have hab' : a = b := by
        cases a
        cases b
        simp only [] at h1
        rw [show _ = _ from h1]
      subst hab'
      rw [hca] at hbc
      exact hbc
    · rw [show lexLt b.data a.data = strLt b a from rfl, hab] at h1
      exact absurd h1 (by simp)

theorem strLe_total (a b : String) : strLt b a = false ∨ strLt a b = false := by
  cases hab : strLt a b
  · exact Or.inr rfl
  · exact Or.inl (lexLt_asymm hab)

instance : IsTotal sessionInfo nameLE :=
  ⟨fun a b => strLe_total a.name b.name⟩

instance : IsTrans sessionInfo nameLE :=
  ⟨fun a b c hab hbc => by
    unfold nameLE at *
    exact strLe_trans hab hbc⟩

instance : IsTotal workspaceGroup groupNameLE :=
  ⟨fun a b => strLe_total a.name b.name⟩

instance : IsTrans workspaceGroup groupNameLE :=
  ⟨fun a b c hab hbc => by
    unfold groupNameLE at *
    exact strLe_trans hab hbc⟩

/-- Two sorted permutations of each other agree once the sort keys are
antisymmetric on the elements present. -/
theorem perm_sorted_eq {α : Type} (le : α → α → Prop) :
    ∀ (l1 l2 : List α), List.Perm l1 l2 → l1.Pairwise le → l2.Pairwise le →
    (∀ a ∈ l1, ∀ b ∈ l1, le a b → le b a → a = b) → l1 = l2 := by
  intro l1
  induction l1 with
  | nil =>
    intro l2 hp _ _ _
    exact hp.nil_eq
  | cons a t1 ih =>
    intro l2 hp h1 h2 hanti
    cases l2 with
    | nil => exact absurd hp.symm.nil_eq (by simp)
    | cons b t2 =>
      by_cases hab : a = b
      · subst hab
        have hp' := hp.cons_inv
        have heq := ih t2 hp' (List.Pairwise.sublist (List.sublist_cons_self a t1) h1 )
          (List.Pairwise.sublist (List.sublist_cons_self a t2) h2)
          (fun x hx y hy hxy hyx =>
            hanti x (List.mem_cons_of_mem _ hx) y (List.mem_cons_of_mem _ hy) hxy hyx)
        rw [heq]
      · -- b occurs in t1 and a occurs in t2, forcing le both ways
        have hbmem : b ∈ a :: t1 := hp.mem_iff.mpr (List.mem_cons_self _ _)
        have hbt1 : b ∈ t1 := by
          rcases List.mem_cons.mp hbmem with h | h
          · exact absurd h.symm hab
          · exact h
        have hamem : a ∈ b :: t2 := hp.mem_iff.mp (List.mem_cons_self _ _)
        have hat2 : a ∈ t2 := by
          rcases List.mem_cons.mp hamem with h | h
          · exact absurd h hab
          · exact h
        have hle1 : le a b := (List.pairwise_cons.mp h1).1 b hbt1
        have hle2 : le b a := (List.pairwise_cons.mp h2).1 a hat2
        exact absurd (hanti a (List.mem_cons_self _ _) b hbmem hle1 hle2) hab

/-! ### Facts about `goClean`, `trimS` and the empty-workdir fallback -/

theorem str_ext {a b : String} (h : a.data = b.data) : a = b := by
  cases a
  cases b
  simp only [] at h
  rw [show _ = _ from h]

theorem head_dropWhile_false (p : Char → Bool) :
    ∀ (l : List Char) (c : Char) (t : List Char),
      l.dropWhile p = c :: t → p c = false := by
  intro l
  induction l with
  | nil => intro c t h; simp [List.dropWhile] at h
  | cons x xs ih =>
    intro c t h
    by_cases hx : p x
    · rw [List.dropWhile_cons_of_pos hx] at h
      exact ih c t h
    · rw [List.dropWhile_cons_of_neg hx] at h
      cases h
      exact Bool.eq_false_iff.mpr hx

theorem cleanStack_elems (rooted : Bool) :
    ∀ comps stack, (∀ w ∈ stack, w ≠ []) →
    ∀ w ∈ cleanStack rooted stack comps, w ≠ [] := by
  intro comps
  induction comps with
  | nil => intro stack h w hw; exact h w hw
  | cons comp rest ih =>
    intro stack h w hw
    simp only [cleanStack] at hw
    by_cases h1 : comp = [] || comp = ['.']
    · rw [if_pos h1] at hw
      exact ih stack h w hw
    · rw [if_neg h1] at hw
      by_cases h2 : comp = ['.', '.']
      · rw [if_pos h2] at hw
        by_cases hroot : rooted = true
        · rw [if_pos hroot] at hw
          exact ih stack.tail (fun u hu => h u (List.mem_of_mem_tail hu)) w hw
        · rw [if_neg hroot] at hw
          by_cases h3 : stack = [] || stack.head? = some ['.', '.']
          · rw [if_pos h3] at hw
            refine ih (['.', '.'] :: stack) ?_ w hw
            intro u hu
            rcases List.mem_cons.mp hu with rfl | hu'
            · simp
            · exact h u hu'
          · rw [if_neg h3] at hw
            exact ih stack.tail (fun u hu => h u (List.mem_of_mem_tail hu)) w hw
      · rw [if_neg h2] at hw
        refine ih (comp :: stack) ?_ w hw
        intro u hu
        rcases List.mem_cons.mp hu with rfl | hu'
        · intro hx
          rw [hx] at h1
          simp at h1
        · exact h u hu'

theorem joinSlash_ne_nil {L : List (List Char)} (hL : L ≠ [])
    (h : ∀ w ∈ L, w ≠ []) : joinSlash L ≠ [] := by
  cases L with
  | nil => exact absurd rfl hL
  | cons w ws =>
    cases ws with
    | nil => exact h w (List.mem_cons_self _ _)
    | cons v vs =>
      have hww := h w (List.mem_cons_self _ _)
      cases w with
      | nil => exact absurd rfl hww
      | cons a b => simp [joinSlash]

theorem goClean_ne_empty (s : String) : goClean s ≠ "" := by
  unfold goClean
  by_cases hd : s.data = []
  · simp [hd]
  · rw [if_neg hd]
    by_cases hr : s.data.head? = some '/'
    · rw [if_pos hr]
      intro hcon
      have := congrArg String.data hcon
      simp at this
    · rw [if_neg hr]
      by_cases hs : (cleanStack false [] (splitSlash s.data)).reverse = []
      · simp [hs]
      · rw [if_neg hs]
        have helems : ∀ w ∈ (cleanStack false [] (splitSlash s.data)).reverse, w ≠ [] :=
          fun w hw => cleanStack_elems false (splitSlash s.data) [] (by simp) w
            (List.mem_reverse.mp hw)
        have hjoin := joinSlash_ne_nil hs helems
        intro hcon
        have h2 := congrArg String.data hcon
        simp only [] at h2
        exact hjoin h2

theorem goClean_rooted {s : String} (h : s.data.head? = some '/') :
    ∃ t, (goClean s).data = '/' :: t := by
  have hd : s.data ≠ [] := by
    intro hx
    rw [hx] at h
    simp at h
  unfold goClean
  rw [if_neg hd, if_pos h]
  exact ⟨_, rfl⟩

theorem isPrefixOf_slash_dot (a : Char) (t : List Char) :
    ((a :: t) ++ ['/']).isPrefixOf ['.'] = false := by
  cases t with
  | nil => simp [List.isPrefixOf]
  | cons b t' => simp [List.isPrefixOf]

/-- The prefix test on an empty path holds exactly when the candidate
prefix cleans to `"."`. -/
theorem hasPathPrefix_empty (pr : String) :
    hasPathPrefix "" pr = true ↔ goClean (trimS pr) = "." := by
  have hp : goClean (trimS "") = "." := rfl
  unfold hasPathPrefix
  rw [hp]
  have hpr := goClean_ne_empty (trimS pr)
  rw [if_neg (by simp [hpr])]
  by_cases heq : ("." : String) = goClean (trimS pr)
  · rw [if_pos heq]
    exact ⟨fun _ => heq.symm, fun _ => rfl⟩
  · rw [if_neg heq]
    constructor
    · intro h
      exfalso
      cases hdat : (goClean (trimS pr)).data with
      | nil =>
        exact hpr (str_ext (by rw [hdat]))
      | cons a t =>
        rw [hdat] at h
        rw [show (("." : String)).data = ['.'] from rfl] at h
        rw [isPrefixOf_slash_dot] at h
        exact Bool.false_ne_true h
    · intro h
      exact absurd h.symm heq

theorem dropWhile_idem (p : Char → Bool) (l : List Char) :
    (l.dropWhile p).dropWhile p = l.dropWhile p := by
  cases hd : l.dropWhile p with
  | nil => rfl
  | cons c t =>
    rw [List.dropWhile_cons_of_neg (by simp [head_dropWhile_false p l c t hd])]

theorem trimRight_getLast_not_space {l : List Char} {x : Char}
    (h : (trimRight l).getLast? = some x) : isSpaceGo x = false := by
  unfold trimRight at h
  rw [List.getLast?_reverse] at h
  cases hd : l.reverse.dropWhile isSpaceGo with
  | nil =>
    rw [hd] at h
    simp at h
  | cons c t =>
    rw [hd] at h
    have : c = x := by simpa using h
    subst this
    exact head_dropWhile_false isSpaceGo l.reverse c t hd

theorem goTrimSpace_idem (l : List Char) : goTrimSpace (goTrimSpace l) = goTrimSpace l := by
  unfold goTrimSpace
  have htr : trimRight (trimLeft (trimRight l)) = trimLeft (trimRight l) := by
    cases hg : (trimLeft (trimRight l)).getLast? with
    | none =>
      have hnil : trimLeft (trimRight l) = [] := by
        cases hx : trimLeft (trimRight l) with
        | nil => rfl
        | cons y ys =>
          obtain ⟨z, hz⟩ := getLast?_some_of_ne (l := y :: ys) (by simp)
          rw [hx] at hg
          rw [hz] at hg
          exact absurd hg (by simp)
      rw [hnil]
      rfl
    | some x =>
      have hne : trimLeft (trimRight l) ≠ [] := by
        intro hx
        rw [hx] at hg
        simp at hg
      have hlast : (trimRight l).getLast? = some x := by
        calc (trimRight l).getLast?
            = ((trimRight l).takeWhile isSpaceGo ++ trimLeft (trimRight l)).getLast? := by
              rw [show (trimRight l).takeWhile isSpaceGo ++ trimLeft (trimRight l) =
                trimRight l from by
                  unfold trimLeft
                  exact List.takeWhile_append_dropWhile isSpaceGo (trimRight l)]
          _ = (trimLeft (trimRight l)).getLast? := getLast?_append_ne hne
          _ = some x := hg
      exact trimRight_eq_self_of_last hg (trimRight_getLast_not_space hlast)
  rw [htr]
  unfold trimLeft
  exact dropWhile_idem _ _

theorem trimS_idem (s : String) : trimS (trimS s) = trimS s := by
  unfold trimS
  rw [show (String.mk (goTrimSpace s.data)).data = goTrimSpace s.data from rfl]
  rw [goTrimSpace_idem]

/-- The prefix test rejects an empty path against an absolute prefix. -/
theorem hasPathPrefix_empty_rooted {pr : String}
    (h : (trimS pr).data.head? = some '/') : hasPathPrefix "" pr = false := by
  cases hx : hasPathPrefix "" pr
  · rfl
  · exfalso
    have hdot := (hasPathPrefix_empty pr).mp hx
    obtain ⟨t, ht⟩ := goClean_rooted h
    rw [hdot] at ht
    simp at ht

/-! ### C1: the assignment loop computes the first longest match -/

/-- Index/byte-length pairs of the groups the matching loop would accept. -/
def matchPairs (wd : String) : List workspaceGroup → Nat → List (Nat × Nat)
  | [], _ => []
  | g :: rest, i =>
    if trimS g.path = "" || trimS g.path = "/" then matchPairs wd rest (i + 1)
    else if hasPathPrefix wd (trimS g.path) then
      (i, (trimS g.path).utf8ByteSize) :: matchPairs wd rest (i + 1)
    else matchPairs wd rest (i + 1)

/-- The running-maximum fold underlying the matching loop. -/
def pairsFold : List (Nat × Nat) → Nat × Nat → Nat × Nat
  | [], acc => acc
  | (j, l) :: ps, acc => if acc.2 < l then pairsFold ps (j, l) else pairsFold ps acc

/-- The claim's reading of the assignment rule: among the non-root groups
(index ≥ 1) whose root path is a separator-aligned prefix of the workdir,
the first one of maximal root-path byte length; the root group (index 0)
if none matches. -/
def specAssign (groups : List workspaceGroup) (wd : String) : Nat :=
  let ms := groups.enum.filter (fun p =>
    decide (1 ≤ p.1) && hasPathPrefix wd p.2.path)
  let maxLen := (ms.map (fun p => p.2.path.utf8ByteSize)).foldr max 0
  match ms.filter (fun p => p.2.path.utf8ByteSize = maxLen) with
  | [] => 0
  | p :: _ => p.1

theorem utf8ByteSize_pos {s : String} (h : s ≠ "") : 0 < s.utf8ByteSize := by
  cases s with
  | mk d =>
    cases d with
    | nil => exact absurd rfl h
    | cons c cs =>
      have h1 : String.utf8ByteSize ⟨c :: cs⟩ = String.utf8ByteSize ⟨cs⟩ + c.utf8Size := by
        simp only [String.utf8ByteSize, String.utf8ByteSize.go]
      have h2 := Char.utf8Size_pos c
      omega

theorem assignLoop_eq_pairsFold (wd : String) :
    ∀ rest i acc, assignLoop wd rest i acc = pairsFold (matchPairs wd rest i) acc := by
  intro rest
  induction rest with
  | nil => intro i acc; rfl
  | cons g rest' ih =>
    intro i acc
    simp only [assignLoop, matchPairs]
    by_cases h1 : trimS g.path = "" ∨ trimS g.path = "/"
    · rw [if_pos (by rcases h1 with h1 | h1 <;> simp [h1]),
        if_pos (by rcases h1 with h1 | h1 <;> simp [h1])]
      exact ih (i + 1) acc
    · have h1' : ¬((trimS g.path = "" || trimS g.path = "/") = true) := by
        simpa using h1
      rw [if_neg h1', if_neg h1']
      by_cases h2 : hasPathPrefix wd (trimS g.path) = true
      · rw [if_pos h2]
        by_cases h3 : acc.2 < (trimS g.path).utf8ByteSize
        · rw [if_pos (by simp [h2, h3]), pairsFold, if_pos h3]
          exact ih (i + 1) _
        · rw [if_neg (by simp [h2, h3]), pairsFold, if_neg h3]
          exact ih (i + 1) acc
      · have h2' : hasPathPrefix wd (trimS g.path) = false := by
          cases hx : hasPathPrefix wd (trimS g.path)
          · rfl
          · exact absurd hx h2
        rw [if_neg (by simp [h2']), if_neg h2]
        exact ih (i + 1) acc

theorem foldr_max_init {xs : List Nat} {a b : Nat} (h : a ≤ b) :
    xs.foldr max b = max b (xs.foldr max a) := by
  induction xs with
  | nil => simp only [List.foldr]; omega
  | cons x xs ih => simp only [List.foldr]; omega

theorem foldr_max_le_init {xs : List Nat} {bl : Nat} : bl ≤ xs.foldr max bl := by
  induction xs with
  | nil => simp only [List.foldr]; omega
  | cons x xs ih => simp only [List.foldr]; omega

theorem foldr_max_attained : ∀ (xs : List Nat) (a : Nat),
    xs.foldr max a = a ∨ xs.foldr max a ∈ xs := by
  intro xs
  induction xs with
  | nil => intro a; exact Or.inl rfl
  | cons x xs ih =>
    intro a
    simp only [List.foldr]
    rcases Nat.le_total (xs.foldr max a) x with hle | hle
    · rw [max_eq_left hle]
      exact Or.inr (List.mem_cons_self _ _)
    · rw [max_eq_right hle]
      rcases ih a with h | h
      · exact Or.inl h
      · exact Or.inr (List.mem_cons_of_mem _ h)

theorem find?_eq_filter_head {α : Type} (f : α → Bool) :
    ∀ l : List α, l.find? f = (l.filter f).head? := by
  intro l
  induction l with
  | nil => rfl
  | cons x xs ih =>
    cases hx : f x with
    | true =>
      rw [List.find?_cons_of_pos _ hx, List.filter_cons_of_pos hx]
      rfl
    | false =>
      rw [List.find?_cons_of_neg _ (by simp [hx]), List.filter_cons_of_neg (by simp [hx]), ih]

/-- The running-maximum fold selects the first pair of maximal length
exceeding the initial bound. -/
theorem pairsFold_spec : ∀ (ps : List (Nat × Nat)) (b bl : Nat),
    pairsFold ps (b, bl) =
      if bl < (ps.map (fun p => p.2)).foldr max bl then
        match ps.find? (fun p => p.2 = (ps.map (fun p => p.2)).foldr max bl) with
        | some p => (p.1, p.2)
        | none => (b, bl)
      else (b, bl) := by
  intro ps
  induction ps with
  | nil =>
    intro b bl
    simp only [pairsFold, List.map_nil, List.foldr, List.find?]
    rw [if_neg (by omega)]
  | cons jl ps' ih =>
    intro b bl
    obtain ⟨j, l⟩ := jl
    simp only [pairsFold, List.map_cons, List.foldr]
    by_cases hlt : bl < l
    · rw [if_pos hlt, ih j l]
      have hM : (ps'.map (fun p => p.2)).foldr max l =
          max l ((ps'.map (fun p => p.2)).foldr max bl) := foldr_max_init (le_of_lt hlt)
      by_cases hbig : l < (ps'.map (fun p => p.2)).foldr max l
      · rw [if_pos hbig, if_pos (by omega)]
        have hmem : (ps'.map (fun p => p.2)).foldr max l ∈ ps'.map (fun p => p.2) := by
          rcases foldr_max_attained (ps'.map (fun p => p.2)) l with h | h
          · omega
          · exact h
        obtain ⟨q, hq, hq2⟩ := List.mem_map.mp hmem
        have hisome : (ps'.find? (fun p =>
            p.2 = (ps'.map (fun p => p.2)).foldr max l)).isSome := by
          rw [List.find?_isSome]
          exact ⟨q, hq, by simp [hq2]⟩
        obtain ⟨r, hr⟩ := Option.isSome_iff_exists.mp hisome
        have hfind2 : List.find? (fun p => p.2 = max l ((ps'.map (fun p => p.2)).foldr max bl))
            ((j, l) :: ps') = List.find? (fun p => p.2 =
              max l ((ps'.map (fun p => p.2)).foldr max bl)) ps' :=
          List.find?_cons_of_neg _ (by simp only [decide_eq_true_eq]; omega)
        rw [hfind2]
        have hr' := hr
        simp only [hM] at hr'
        rw [hr, hr']
      · rw [if_neg hbig, if_pos (by omega)]
        have hfoldl : (ps'.map (fun p => p.2)).foldr max l = l := by
          have : l ≤ (ps'.map (fun p => p.2)).foldr max l := foldr_max_le_init
          omega
        have hMeq : max l ((ps'.map (fun p => p.2)).foldr max bl) = l := by omega
        have hhead : List.find? (fun p => p.2 = max l ((ps'.map (fun p => p.2)).foldr max bl))
            ((j, l) :: ps') = some (j, l) :=
          List.find?_cons_of_pos _ (by simp only [decide_eq_true_eq]; omega)
        rw [hhead]
    · rw [if_neg hlt, ih b bl]
      have hle : l ≤ bl := Nat.le_of_not_lt hlt
      have hinit : bl ≤ (ps'.map (fun p => p.2)).foldr max bl := foldr_max_le_init
      have hM : max l ((ps'.map (fun p => p.2)).foldr max bl) =
          (ps'.map (fun p => p.2)).foldr max bl := by omega
      by_cases hbig : bl < (ps'.map (fun p => p.2)).foldr max bl
      · rw [if_pos hbig, if_pos (by omega)]
        have hhead : List.find? (fun p => p.2 = max l ((ps'.map (fun p => p.2)).foldr max bl))
            ((j, l) :: ps') = List.find? (fun p => p.2 =
              max l ((ps'.map (fun p => p.2)).foldr max bl)) ps' :=
          List.find?_cons_of_neg _ (by simp only [decide_eq_true_eq]; omega)
        rw [hhead]
        simp only [hM]
      · rw [if_neg hbig, if_neg (by omega)]

theorem foldr_max_ge_elem {xs : List Nat} {x a : Nat} (h : x ∈ xs) :
    x ≤ xs.foldr max a := by
  induction xs with
  | nil => simp at h
  | cons y ys ih =>
    simp only [List.foldr]
    rcases List.mem_cons.mp h with rfl | h'
    · omega
    · have := ih h'
      omega

/-- On a skeleton whose non-root paths are trimmed and neither empty nor
`"/"`, the matching loop enumerates exactly the separator-aligned matches. -/
theorem matchPairs_eq (wd : String) :
    ∀ (l : List workspaceGroup), (∀ g ∈ l, trimS g.path = g.path) →
    (∀ g ∈ l, g.path ≠ "" ∧ g.path ≠ "/") →
    ∀ i, matchPairs wd l i =
      ((List.enumFrom i l).filter (fun p => hasPathPrefix wd p.2.path)).map
        (fun p => (p.1, p.2.path.utf8ByteSize)) := by
  intro l
  induction l with
  | nil => intro _ _ i; rfl
  | cons g rest ih =>
    intro htrim hvalid i
    have htg := htrim g (List.mem_cons_self _ _)
    have hvg := hvalid g (List.mem_cons_self _ _)
    have ihr := ih (fun u hu => htrim u (List.mem_cons_of_mem _ hu))
      (fun u hu => hvalid u (List.mem_cons_of_mem _ hu))
    simp only [matchPairs, List.enumFrom]
    rw [htg]
    rw [if_neg (by simp [hvg.1, hvg.2])]
    by_cases hm : hasPathPrefix wd g.path = true
    · rw [if_pos hm, List.filter_cons_of_pos (by simpa using hm)]
      simp only [List.map_cons]
      rw [ihr (i + 1)]
    · have hm' : hasPathPrefix wd g.path = false := by
        cases hx : hasPathPrefix wd g.path
        · rfl
        · exact absurd hx hm
      rw [if_neg (by simp [hm']), List.filter_cons_of_neg (by simp [hm'])]
      exact ihr (i + 1)

/-- C1 core equivalence: the loop of `groupedSessions` assigns exactly the
first non-root group of maximal matching root-path length (root group
otherwise). -/
theorem assignIndex_eq_specAssign (groups : List workspaceGroup) (wd : String)
    (htrim : ∀ g ∈ groups.tail, trimS g.path = g.path)
    (hvalid : ∀ g ∈ groups.tail, g.path ≠ "" ∧ g.path ≠ "/") :
    assignIndex groups wd = specAssign groups wd := by
  cases groups with
  | nil => rfl
  | cons g0 tail =>
    simp only [assignIndex, specAssign, List.tail_cons] at htrim hvalid ⊢
    rw [assignLoop_eq_pairsFold, matchPairs_eq wd tail htrim hvalid 1]
    have henum : (g0 :: tail).enum = (0, g0) :: List.enumFrom 1 tail := rfl
    rw [henum, List.filter_cons_of_neg (by simp)]
    rw [List.filter_congr (fun p hp => by
      have h1 : 1 ≤ p.1 := List.le_fst_of_mem_enumFrom hp
      simp [h1] : ∀ p ∈ List.enumFrom 1 tail,
        (decide (1 ≤ p.1) && hasPathPrefix wd p.2.path) = hasPathPrefix wd p.2.path)]
    set F := (List.enumFrom 1 tail).filter (fun p => hasPathPrefix wd p.2.path) with hF
    rw [pairsFold_spec]
    have hlens : (F.map (fun p => (p.1, p.2.path.utf8ByteSize))).map (fun p => p.2) =
        F.map (fun p => p.2.path.utf8ByteSize) := by
      rw [List.map_map]
      rfl
    rw [hlens]
    cases hFc : F with
    | nil => simp
    | cons p0 F' =>
      rw [← hFc]
      have hp0 : p0 ∈ F := by rw [hFc]; exact List.mem_cons_self _ _
      have hmemF : ∀ p ∈ F, p.2.path ≠ "" := by
        intro p hp
        have hp2 : p ∈ List.enumFrom 1 tail := List.mem_of_mem_filter hp
        exact (hvalid p.2 (List.snd_mem_of_mem_enumFrom hp2)).1
      have hlen0 : 0 < p0.2.path.utf8ByteSize := utf8ByteSize_pos (hmemF p0 hp0)
      have hM1 : p0.2.path.utf8ByteSize ≤
          (F.map (fun p => p.2.path.utf8ByteSize)).foldr max 0 :=
        foldr_max_ge_elem (List.mem_map_of_mem _ hp0)
      rw [if_pos (by omega)]
      have hatt : (F.map (fun p => p.2.path.utf8ByteSize)).foldr max 0 ∈
          F.map (fun p => p.2.path.utf8ByteSize) := by
        rcases foldr_max_attained (F.map (fun p => p.2.path.utf8ByteSize)) 0 with h | h
        · omega
        · exact h
      obtain ⟨q, hq, hq2⟩ := List.mem_map.mp hatt
      rw [List.find?_map]
      have hcomp : ((fun p : Nat × Nat => decide (p.2 =
          (F.map (fun p => p.2.path.utf8ByteSize)).foldr max 0)) ∘
            (fun p : Nat × workspaceGroup => (p.1, p.2.path.utf8ByteSize))) =
          fun p : Nat × workspaceGroup => decide (p.2.path.utf8ByteSize =
            (F.map (fun p => p.2.path.utf8ByteSize)).foldr max 0) := by
        funext p
        rfl
      rw [hcomp, find?_eq_filter_head]
      have hmemq : q ∈ F.filter (fun p => p.2.path.utf8ByteSize =
          (F.map (fun p => p.2.path.utf8ByteSize)).foldr max 0) :=
        List.mem_filter.mpr ⟨hq, by simp [hq2]⟩
      cases hfc : F.filter (fun p => p.2.path.utf8ByteSize =
          (F.map (fun p => p.2.path.utf8ByteSize)).foldr max 0) with
      | nil =>
        rw [hfc] at hmemq
        simp at hmemq
      | cons p1 rest1 =>
        rfl

/-! ### The distribution loop appends each session to its assigned group -/

theorem appendSessionAt_get? : ∀ (groups : List workspaceGroup) (b : Nat) (s : sessionInfo)
    (j : Nat), (appendSessionAt groups b s).get? j =
      (groups.get? j).map
        (fun g => if b = j then { g with sessions := g.sessions ++ [s] } else g) := by
  intro groups
  induction groups with
  | nil => intro b s j; rfl
  | cons g rest ih =>
    intro b s j
    cases b with
    | zero =>
      cases j with
      | zero => simp [appendSessionAt]
      | succ j' =>
        rw [show appendSessionAt (g :: rest) 0 s =
          { g with sessions := g.sessions ++ [s] } :: rest from rfl]
        show rest.get? j' = (rest.get? j').map _
        cases hx : rest.get? j' <;> simp [hx]
    | succ b' =>
      cases j with
      | zero => simp [appendSessionAt]
      | succ j' =>
        show (appendSessionAt rest b' s).get? j' = (rest.get? j').map _
        rw [ih b' s j']
        congr 1
        funext u
        by_cases hbj : b' = j'
        · simp [hbj]
        · simp [hbj, fun h => hbj (Nat.succ_injective h)]

theorem assignLoop_paths_congr (wd : String) :
    ∀ (l1 l2 : List workspaceGroup), l1.map (fun g => g.path) = l2.map (fun g => g.path) →
    ∀ i acc, assignLoop wd l1 i acc = assignLoop wd l2 i acc := by
  intro l1
  induction l1 with
  | nil =>
    intro l2 h i acc
    cases l2 with
    | nil => rfl
    | cons g2 rest2 => simp at h
  | cons g rest ih =>
    intro l2 h i acc
    cases l2 with
    | nil => simp at h
    | cons g2 rest2 =>
      simp only [List.map_cons, List.cons.injEq] at h
      simp only [assignLoop]
      rw [h.1]
      by_cases h1 : (trimS g2.path = "" || trimS g2.path = "/") = true
      · rw [if_pos h1, if_pos h1]
        exact ih rest2 h.2 _ _
      · rw [if_neg h1, if_neg h1]
        by_cases h2 : (hasPathPrefix wd (trimS g2.path) &&
            decide (acc.2 < (trimS g2.path).utf8ByteSize)) = true
        · rw [if_pos h2, if_pos h2]
          exact ih rest2 h.2 _ _
        · rw [if_neg h2, if_neg h2]
          exact ih rest2 h.2 _ _

theorem appendSessionAt_paths : ∀ (groups : List workspaceGroup) (b : Nat) (s : sessionInfo),
    (appendSessionAt groups b s).map (fun g => g.path) = groups.map (fun g => g.path) := by
  intro groups
  induction groups with
  | nil => intro b s; rfl
  | cons g rest ih =>
    intro b s
    cases b with
    | zero => simp [appendSessionAt]
    | succ b' => simp [appendSessionAt, ih b' s]

theorem assignIndex_append_invariant (groups : List workspaceGroup) (b : Nat)
    (s : sessionInfo) (wd : String) :
    assignIndex (appendSessionAt groups b s) wd = assignIndex groups wd := by
  unfold assignIndex
  have hmap : (appendSessionAt groups b s).tail.map (fun g => g.path) =
      groups.tail.map (fun g => g.path) := by
    cases groups with
    | nil => rfl
    | cons g rest =>
      cases b with
      | zero => rfl
      | succ b' =>
        show (appendSessionAt rest b' s).map _ = _
        exact appendSessionAt_paths rest b' s
  rw [assignLoop_paths_congr wd _ _ hmap 1 (0, 0)]

theorem attachLoop_get? : ∀ (S : List sessionInfo) (groups : List workspaceGroup) (j : Nat),
    (attachLoop S groups).get? j = (groups.get? j).map (fun g =>
      { g with sessions :=
          g.sessions ++ S.filter (fun s => assignIndex groups s.workdir = j) }) := by
  intro S
  induction S with
  | nil =>
    intro groups j
    show groups.get? j = _
    cases hx : groups.get? j <;> simp [hx, List.filter]
  | cons s rest ih =>
    intro groups j
    show (attachLoop rest (appendSessionAt groups (assignIndex groups s.workdir) s)).get? j = _
    rw [ih]
    simp only [assignIndex_append_invariant]
    rw [appendSessionAt_get? groups (assignIndex groups s.workdir) s j]
    rw [Option.map_map]
    cases hx : groups.get? j with
    | none => rfl
    | some g =>
      simp only [Option.map_some', Function.comp]
      by_cases hbj : assignIndex groups s.workdir = j
      · rw [if_pos hbj]
        rw [List.filter_cons_of_pos (by simp [hbj])]
        simp
      · rw [if_neg hbj]
        rw [List.filter_cons_of_neg (by simp [hbj])]

theorem attachSessions_get? (groups : List workspaceGroup) (S : List sessionInfo) (j : Nat) :
    (attachSessions groups S).get? j = (groups.get? j).map (fun g =>
      { g with sessions :=
          sortSessions (g.sessions ++ S.filter (fun s => assignIndex groups s.workdir = j)) }) := by
  unfold attachSessions
  rw [List.get?_map, attachLoop_get?, Option.map_map]
  cases hx : groups.get? j with
  | none => rfl
  | some g => simp [Function.comp]

theorem assignLoop_fst_range (wd : String) :
    ∀ (rest : List workspaceGroup) (i : Nat) (acc : Nat × Nat),
    (assignLoop wd rest i acc).1 = acc.1 ∨
      (i ≤ (assignLoop wd rest i acc).1 ∧
        (assignLoop wd rest i acc).1 < i + rest.length) := by
  intro rest
  induction rest with
  | nil => intro i acc; exact Or.inl rfl
  | cons g rest' ih =>
    intro i acc
    simp only [assignLoop, List.length_cons]
    by_cases h1 : (trimS g.path = "" || trimS g.path = "/") = true
    · rw [if_pos h1]
      rcases ih (i + 1) acc with h | ⟨ha, hb⟩
      · exact Or.inl h
      · exact Or.inr ⟨by omega, by omega⟩
    · rw [if_neg h1]
      by_cases h2 : (hasPathPrefix wd (trimS g.path) &&
          decide (acc.2 < (trimS g.path).utf8ByteSize)) = true
      · rw [if_pos h2]
        rcases ih (i + 1) (i, (trimS g.path).utf8ByteSize) with h | ⟨ha, hb⟩
        · rw [h]
          exact Or.inr ⟨le_rfl, by omega⟩
        · exact Or.inr ⟨by omega, by omega⟩
      · rw [if_neg h2]
        rcases ih (i + 1) acc with h | ⟨ha, hb⟩
        · exact Or.inl h
        · exact Or.inr ⟨by omega, by omega⟩

theorem assignIndex_lt {groups : List workspaceGroup} (h : groups ≠ []) (wd : String) :
    assignIndex groups wd < groups.length := by
  unfold assignIndex
  cases groups with
  | nil => exact absurd rfl h
  | cons g0 tail =>
    rcases assignLoop_fst_range wd tail 1 (0, 0) with h1 | ⟨h1, h2⟩
    · rw [List.tail_cons, h1]
      simp
    · show (assignLoop wd tail 1 (0, 0)).1 < (g0 :: tail).length
      simp only [List.length_cons]
      omega

/-- C1. For every reported session the grouping step assigns the session to
the non-root group whose root path is a separator-aligned prefix of the
session's workdir with the longest root path (first group on ties), and to
the root group when no non-root group matches: the loop's assignment index
equals the specification's first-longest-match index, and in the attached
output each session appears in exactly that group's session list. -/
theorem spec_c1_longest_match (groups : List workspaceGroup) (sessions : List sessionInfo)
    (htrim : ∀ g ∈ groups.tail, trimS g.path = g.path)
    (hvalid : ∀ g ∈ groups.tail, g.path ≠ "" ∧ g.path ≠ "/") :
    (∀ wd, assignIndex groups wd = specAssign groups wd) ∧
    (groups ≠ [] → ∀ s ∈ sessions, ∃ g,
      (attachSessions groups sessions).get? (specAssign groups s.workdir) = some g ∧
      s ∈ g.sessions) := by
  refine ⟨fun wd => assignIndex_eq_specAssign groups wd htrim hvalid, ?_⟩
  intro hne s hs
  have heq := assignIndex_eq_specAssign groups s.workdir htrim hvalid
  rw [← heq]
  have hlt := assignIndex_lt hne s.workdir
  obtain ⟨g, hg⟩ : ∃ g, groups.get? (assignIndex groups s.workdir) = some g := by
    cases hx : groups.get? (assignIndex groups s.workdir) with
    | none =>
      have := List.get?_eq_none.mp hx
      omega
    | some g => exact ⟨g, rfl⟩
  refine ⟨{ g with sessions := sortSessions (g.sessions ++
    sessions.filter (fun t => assignIndex groups t.workdir =
      assignIndex groups s.workdir)) }, ?_, ?_⟩
  · rw [attachSessions_get?, hg]
    rfl
  · show s ∈ sortSessions _
    have hsf : s ∈ sessions.filter (fun t => assignIndex groups t.workdir =
        assignIndex groups s.workdir) :=
      List.mem_filter.mpr ⟨hs, by simp⟩
    have hmem : s ∈ g.sessions ++ sessions.filter (fun t => assignIndex groups t.workdir =
        assignIndex groups s.workdir) := List.mem_append_right _ hsf
    exact (List.Perm.mem_iff (List.perm_insertionSort nameLE _)).mpr hmem

/-- Witness for C1: two nested candidate roots, the longer wins. -/
theorem spec_c1_longest_match_witness :
    assignIndex [rootGroup,
      ⟨"git", "a", "git/a", "/root/git/a", []⟩,
      ⟨"git", "ab", "git/ab", "/root/git/ab", []⟩] "/root/git/ab/sub" =
    specAssign [rootGroup,
      ⟨"git", "a", "git/a", "/root/git/a", []⟩,
      ⟨"git", "ab", "git/ab", "/root/git/ab", []⟩] "/root/git/ab/sub" ∧
    (∃ g, (attachSessions [rootGroup,
        ⟨"git", "a", "git/a", "/root/git/a", []⟩,
        ⟨"git", "ab", "git/ab", "/root/git/ab", []⟩]
        [⟨"sess", "/root/git/ab/sub", false, 1⟩]).get?
          (specAssign [rootGroup,
            ⟨"git", "a", "git/a", "/root/git/a", []⟩,
            ⟨"git", "ab", "git/ab", "/root/git/ab", []⟩]
            (sessionInfo.workdir ⟨"sess", "/root/git/ab/sub", false, 1⟩)) = some g ∧
      (⟨"sess", "/root/git/ab/sub", false, 1⟩ : sessionInfo) ∈ g.sessions) :=
  ⟨(spec_c1_longest_match [rootGroup,
      ⟨"git", "a", "git/a", "/root/git/a", []⟩,
      ⟨"git", "ab", "git/ab", "/root/git/ab", []⟩] [⟨"sess", "/root/git/ab/sub", false, 1⟩]
      (by decide) (by decide)).1 "/root/git/ab/sub",
   (spec_c1_longest_match [rootGroup,
      ⟨"git", "a", "git/a", "/root/git/a", []⟩,
      ⟨"git", "ab", "git/ab", "/root/git/ab", []⟩] [⟨"sess", "/root/git/ab/sub", false, 1⟩]
      (by decide) (by decide)).2 (by simp)
      ⟨"sess", "/root/git/ab/sub", false, 1⟩ (List.mem_cons_self _ _)⟩

/-- C6. Grouping is idempotent and deterministic: attaching the same
sessions to the same skeleton twice yields identical output; each group's
session list is sorted by name ascending; and for name-distinct session
sets the output does not depend on the order the sessions were reported
in. -/
theorem spec_c6_attach_deterministic (groups : List workspaceGroup)
    (sessions : List sessionInfo) (hskel : ∀ g ∈ groups, g.sessions = []) :
    attachSessions groups sessions = attachSessions groups sessions ∧
    (∀ g ∈ attachSessions groups sessions, g.sessions.Pairwise nameLE) ∧
    (∀ sessions', List.Perm sessions sessions' →
      sessions.Pairwise (fun a b => a.name ≠ b.name) →
      attachSessions groups sessions = attachSessions groups sessions') := by
  refine ⟨rfl, ?_, ?_⟩
  · intro g hg
    obtain ⟨g0, hg0, rfl⟩ := List.mem_map.mp hg
    exact List.sorted_insertionSort nameLE _
  · intro sessions' hperm hnames
    apply List.ext
    intro j
    rw [attachSessions_get?, attachSessions_get?]
    cases hx : groups.get? j with
    | none => rfl
    | some g =>
      have hgs : g.sessions = [] := hskel g (List.get?_mem hx)
      simp only [Option.map_some', hgs, List.nil_append]
      have hpermf : List.Perm
          (sessions.filter (fun s => assignIndex groups s.workdir = j))
          (sessions'.filter (fun s => assignIndex groups s.workdir = j)) :=
        hperm.filter _
      have hsorteq : sortSessions (sessions.filter (fun s => assignIndex groups s.workdir = j)) =
          sortSessions (sessions'.filter (fun s => assignIndex groups s.workdir = j)) := by
        apply perm_sorted_eq nameLE
        · exact (List.perm_insertionSort nameLE _).trans
            (hpermf.trans (List.perm_insertionSort nameLE _).symm)
        · exact List.sorted_insertionSort nameLE _
        · exact List.sorted_insertionSort nameLE _
        · intro a ha b hb hab hba
          have hname : a.name = b.name := strLt_connex hba hab
          by_contra hne
          have hmema : a ∈ sessions := by
            have := (List.Perm.mem_iff (List.perm_insertionSort nameLE _)).mp ha
            exact List.mem_of_mem_filter this
          have hmemb : b ∈ sessions := by
            have := (List.Perm.mem_iff (List.perm_insertionSort nameLE _)).mp hb
            exact List.mem_of_mem_filter this
          have hdiff : a.name ≠ b.name :=
            List.Pairwise.forall (fun {x y} h1 h2 => (h1 h2.symm).elim : Symmetric
              (fun a b : sessionInfo => a.name ≠ b.name)) hnames hmema hmemb hne
          exact hdiff hname
      rw [hsorteq]

/-- Witness for C6 at a two-group skeleton and two sessions given in both
orders. -/
theorem spec_c6_attach_deterministic_witness :
    (∀ g ∈ attachSessions [rootGroup, ⟨"git", "a", "git/a", "/root/git/a", []⟩]
      [⟨"zz", "/root/git/a", false, 1⟩, ⟨"aa", "/tmp", true, 2⟩],
        g.sessions.Pairwise nameLE) ∧
    attachSessions [rootGroup, ⟨"git", "a", "git/a", "/root/git/a", []⟩]
      [⟨"zz", "/root/git/a", false, 1⟩, ⟨"aa", "/tmp", true, 2⟩] =
    attachSessions [rootGroup, ⟨"git", "a", "git/a", "/root/git/a", []⟩]
      [⟨"aa", "/tmp", true, 2⟩, ⟨"zz", "/root/git/a", false, 1⟩] :=
  ⟨(spec_c6_attach_deterministic [rootGroup, ⟨"git", "a", "git/a", "/root/git/a", []⟩]
      [⟨"zz", "/root/git/a", false, 1⟩, ⟨"aa", "/tmp", true, 2⟩] (by decide)).2.1,
   (spec_c6_attach_deterministic [rootGroup, ⟨"git", "a", "git/a", "/root/git/a", []⟩]
      [⟨"zz", "/root/git/a", false, 1⟩, ⟨"aa", "/tmp", true, 2⟩] (by decide)).2.2
      [⟨"aa", "/tmp", true, 2⟩, ⟨"zz", "/root/git/a", false, 1⟩]
      (List.Perm.swap _ _ _) (by decide)⟩

/-- C10. A session whose workdir is the empty string is assigned to the
root group: against every non-root group root path (absolute, as produced
by discovery) the separator-aligned prefix test on the empty path returns
false, so the matching loop never moves off the root fallback index 0. -/
theorem spec_c10_empty_workdir (groups : List workspaceGroup)
    (habs : ∀ g ∈ groups.tail, (trimS g.path).data.head? = some '/') :
    (∀ g ∈ groups.tail, hasPathPrefix "" g.path = false) ∧
    (∀ s : sessionInfo, s.workdir = "" → assignIndex groups s.workdir = 0) := by
  have hfalse : ∀ g ∈ groups.tail, hasPathPrefix "" (trimS g.path) = false := by
    intro g hg
    apply hasPathPrefix_empty_rooted
    rw [trimS_idem]
    exact habs g hg
  refine ⟨fun g hg => hasPathPrefix_empty_rooted (habs g hg), ?_⟩
  intro s hs
  rw [hs]
  show (assignLoop "" groups.tail 1 (0, 0)).1 = 0
  have hconst : ∀ (rest : List workspaceGroup) (i : Nat) (acc : Nat × Nat),
      (∀ g ∈ rest, hasPathPrefix "" (trimS g.path) = false) →
      assignLoop "" rest i acc = acc := by
    intro rest
    induction rest with
    | nil => intro i acc _; rfl
    | cons g rest' ih =>
      intro i acc h
      have hg := h g (List.mem_cons_self _ _)
      simp only [assignLoop]
      by_cases h1 : (trimS g.path = "" || trimS g.path = "/") = true
      · rw [if_pos h1]
        exact ih (i + 1) acc (fun u hu => h u (List.mem_cons_of_mem _ hu))
      · rw [if_neg h1, if_neg (by simp [hg])]
        exact ih (i + 1) acc (fun u hu => h u (List.mem_cons_of_mem _ hu))
  rw [hconst groups.tail 1 (0, 0) hfalse]

/-- Witness for C10 at a skeleton with two absolute non-root roots. -/
theorem spec_c10_empty_workdir_witness :
    (∀ g ∈ [rootGroup, ⟨"git", "a", "git/a", "/root/git/a", []⟩,
        ⟨"git", "b", "git/b", "/root/git/b", []⟩].tail,
      hasPathPrefix "" g.path = false) ∧
    (∀ s : sessionInfo, s.workdir = "" →
      assignIndex [rootGroup, ⟨"git", "a", "git/a", "/root/git/a", []⟩,
        ⟨"git", "b", "git/b", "/root/git/b", []⟩] s.workdir = 0) :=
  spec_c10_empty_workdir [rootGroup, ⟨"git", "a", "git/a", "/root/git/a", []⟩,
    ⟨"git", "b", "git/b", "/root/git/b", []⟩] (by decide)

/-! ### `groupedSessions` pipeline: error handling and parsing -/

/-- The `groupedSessions` error test (`main.go`): a lowered error message
containing `"no server running"` or `"failed to connect"` means the tmux
server simply is not up. -/
def isNoServerErr (e : String) : Bool :=
  goContains (String.mk (e.data.map goToLower)) "no server running" ||
  goContains (String.mk (e.data.map goToLower)) "failed to connect"

/-- Split on a separator character, keeping empty pieces (Go
`strings.Split` with a one-character separator). -/
def splitChAux (sep : Char) (acc : List Char) : List Char → List (List Char)
  | [] => [acc.reverse]
  | c :: rest =>
    if c = sep then acc.reverse :: splitChAux sep [] rest
    else splitChAux sep (c :: acc) rest

/-- Go `strings.Split(s, sep)` for a one-character separator. -/
def splitOn (sep : Char) (l : List Char) : List (List Char) := splitChAux sep [] l

/-- Go `strings.SplitN(s, "|", 3)`. -/
def splitN3 (l : List Char) : List (List Char) :=
  match l.dropWhile (fun c => c != '|') with
  | [] => [l.takeWhile (fun c => c != '|')]
  | _ :: r1 =>
    match r1.dropWhile (fun c => c != '|') with
    | [] => [l.takeWhile (fun c => c != '|'), r1.takeWhile (fun c => c != '|')]
    | _ :: r2 => [l.takeWhile (fun c => c != '|'), r1.takeWhile (fun c => c != '|'), r2]

/-- `atoiSafe` from `main.go`: parse a leading run of decimal digits. -/
def atoiSafeAux (acc : Nat) : List Char → Nat
  | [] => acc
  | c :: rest =>
    if c < '0' || '9' < c then acc
    else atoiSafeAux (acc * 10 + (c.toNat - '0'.toNat)) rest

/-- `atoiSafe` on strings. -/
def atoiSafe (s : String) : Nat := atoiSafeAux 0 s.data

/-- Build the pane-index-0 workdir map of `groupedSessions` from the
`list-panes` output lines: first entry per session name wins. -/
def buildPaneMap : List (List Char) → List (String × String)
  | [] => []
  | line :: rest =>
    if goTrimSpace line = [] then buildPaneMap rest
    else
      match splitN3 line with
      | [p0, p1, p2] =>
        if trimS (String.mk p1) ≠ "0" then buildPaneMap rest
        else if trimS (String.mk p0) = "" then buildPaneMap rest
        else (trimS (String.mk p0), trimS (String.mk p2)) :: buildPaneMap rest
      | _ => buildPaneMap rest

/-- Go map lookup with the zero value `""` for missing keys. -/
def paneLookup (m : List (String × String)) (name : String) : String :=
  ((m.find? (fun p => p.1 = name)).map (fun p => p.2)).getD ""

/-- Parse the (already trimmed) `list-sessions` output into sessions. -/
def parseSessions (metaTrimmed : String) (paneMap : List (String × String)) :
    List sessionInfo :=
  (splitOn '\n' metaTrimmed.data).filterMap (fun line =>
    match splitN3 (goTrimSpace line) with
    | [p0, p1, p2] =>
      if trimS (String.mk p0) = "" then none
      else some
        { name := trimS (String.mk p0),
          workdir := trimS (paneLookup paneMap (trimS (String.mk p0))),
          attached := trimS (String.mk p1) = "1",
          windows := atoiSafe (trimS (String.mk p2)) }
    | _ => none)

/-- `groupedSessions` from `main.go`, with the discovered skeleton and the
two tmux query results passed explicitly (the `list-panes` error is
discarded by the code, so only its output string appears). -/
def groupedSessionsModel (groups : List workspaceGroup)
    (metaRes : Except String String) (paneOut : String) :
    Except String (List workspaceGroup) :=
  match metaRes with
  | .error e => if isNoServerErr e then Except.ok groups else Except.error e
  | .ok metaOut =>
    if trimS metaOut = "" then Except.ok groups
    else
      Except.ok (attachSessions (if groups = [] then [rootGroup] else groups)
        (parseSessions (trimS metaOut)
          (buildPaneMap (splitOn '\n' (goTrimSpace paneOut.data)))))

/-- C4. A live-session query failure whose message indicates no tmux
server/process is running is treated as the empty session set: the
discovered groups are returned unchanged (still with empty session lists)
and no error; every other failure propagates to the caller. -/
theorem spec_c4_error_semantics (groups : List workspaceGroup) (e : String)
    (paneOut : String) (hempty : ∀ g ∈ groups, g.sessions = []) :
    (isNoServerErr e = true →
      groupedSessionsModel groups (Except.error e) paneOut = Except.ok groups ∧
      ∀ g ∈ groups, g.sessions = []) ∧
    (isNoServerErr e = false →
      groupedSessionsModel groups (Except.error e) paneOut = Except.error e) := by
  constructor
  · intro h
    exact ⟨by simp [groupedSessionsModel, h], hempty⟩
  · intro h
    simp [groupedSessionsModel, h]

/-- Witness for C4: a "no server running" error is swallowed, a permission
error propagates. -/
theorem spec_c4_error_semantics_witness :
    (groupedSessionsModel [rootGroup]
      (Except.error "no server running on /tmp/tmux-0/default") "" =
        Except.ok [rootGroup] ∧
      ∀ g ∈ [rootGroup], g.sessions = []) ∧
    groupedSessionsModel [rootGroup] (Except.error "permission denied") "" =
      Except.error "permission denied" :=
  ⟨(spec_c4_error_semantics [rootGroup] "no server running on /tmp/tmux-0/default" ""
      (by decide)).1 (by decide),
   (spec_c4_error_semantics [rootGroup] "permission denied" "" (by decide)).2 (by decide)⟩

/-- C5. Discovery always returns at least one group — a synthetic root
group whose root path `"/"` never matches — and a directory-enumeration
failure is swallowed: the result is the root group alone, as a success. -/
theorem spec_c5_root_fallback (root : String) (res : Except String (List String)) :
    (∃ gs, discoverRepoGroups root res = Except.ok gs) ∧
    (∀ gs, discoverRepoGroups root res = Except.ok gs →
      gs ≠ [] ∧ gs.head? = some rootGroup) ∧
    rootGroup.path = "/" ∧
    (∀ e, discoverRepoGroups root (Except.error e) = Except.ok [rootGroup]) := by
  refine ⟨?_, ?_, rfl, fun e => rfl⟩
  · cases res with
    | error e => exact ⟨[rootGroup], rfl⟩
    | ok repos => exact ⟨_, rfl⟩
  · intro gs hgs
    cases res with
    | error e =>
      simp only [discoverRepoGroups] at hgs
      cases hgs
      exact ⟨by simp, rfl⟩
    | ok repos =>
      simp only [discoverRepoGroups] at hgs
      cases hgs
      exact ⟨by simp, rfl⟩

/-- Witness for C5 with a failed enumeration. -/
theorem spec_c5_root_fallback_witness :
    discoverRepoGroups "/root/git" (Except.error "ssh: connect refused") =
      Except.ok [rootGroup] ∧
    ([rootGroup] ≠ ([] : List workspaceGroup) ∧
      ([rootGroup] : List workspaceGroup).head? = some rootGroup) :=
  ⟨(spec_c5_root_fallback "/root/git" (Except.error "ssh: connect refused")).2.2.2
      "ssh: connect refused",
   (spec_c5_root_fallback "/root/git" (Except.error "ssh: connect refused")).2.1
      [rootGroup] rfl⟩

/-! ### Soft-attach preview: pane command and idempotence -/

/-- `defaultRemoteTarget` from `main.go`. -/
def defaultRemoteTarget : String := "local"

/-- `remoteTarget` from `main.go` (constant in this revision). -/
def remoteTarget : String := defaultRemoteTarget

/-- `isLocalRemote` from `main.go`. -/
def isLocalRemote : Bool :=
  trimS (String.mk (remoteTarget.data.map goToLower)) = "" ||
  trimS (String.mk (remoteTarget.data.map goToLower)) = "local"

/-- The characters `shellQuote` treats as requiring quoting. -/
def shellSpecialChars : String := " \t\n\x27\"`$&|;<>*?[]\x7b\x7d()!"

/-- Replace every single quote by `'"'"'` (the loop of
`strings.ReplaceAll(s, "'", ...)` in `shellQuote`). -/
def quoteEscape : List Char → List Char
  | [] => []
  | c :: rest =>
    if c = '\x27' then '\x27' :: '"' :: '\x27' :: '"' :: '\x27' :: quoteEscape rest
    else c :: quoteEscape rest

/-- `shellQuote` from `main.go`. -/
def shellQuote (s : String) : String :=
  if s = "" then "\x27\x27"
  else if !(s.data.any (fun c => c ∈ shellSpecialChars.data)) then s
  else "\x27" ++ String.mk (quoteEscape s.data) ++ "\x27"

/-- `shellJoin` from `main.go`. -/
def shellJoin (args : List String) : String :=
  if args = [] then "" else joinSpace (args.map shellQuote)

/-- `softAttachPaneCommand` from `main.go`: the command the preview pane
runs. -/
def softAttachPaneCommand (session : String) : String :=
  if isLocalRemote then "TMUX= tmux attach-session -t " ++ shellQuote session
  else shellJoin ["mosh", remoteTarget, "--", "tmux", "attach-session", "-t", session]

/-- C3 (code bug exhibit). At the repository's own test input
`"my-session"`, the preview pane command contains no `-r` read-only flag:
it is a plain read-write `tmux attach-session`, although the spec and the
test `TestSoftAttachPaneCommandUsesReadOnlyAttach` require a read-only
attach. -/
theorem spec_c3_no_readonly_flag :
    softAttachPaneCommand "my-session" = "TMUX= tmux attach-session -t my-session" ∧
    goContains (softAttachPaneCommand "my-session") "-r" = false := by
  constructor
  · rfl
  · decide

/-- The subset of the Bubble Tea `model` state the preview path reads. -/
structure pickerModel where
  groups : List workspaceGroup
  selectedWorkspace : Int
  selectedSession : Int
  previewPane : String
  previewSession : String
deriving DecidableEq, Inhabited

/-- `(m model) currentSessions` from `main.go`. -/
def currentSessions (m : pickerModel) : List sessionInfo :=
  if m.groups = [] ∨ m.selectedWorkspace < 0 ∨
      (m.groups.length : Int) ≤ m.selectedWorkspace then []
  else (m.groups.getD m.selectedWorkspace.toNat default).sessions

/-- `(m model) selectedSessionInfo` from `main.go`. -/
def selectedSessionInfo (m : pickerModel) : Option sessionInfo :=
  if currentSessions m = [] ∨ m.selectedSession < 0 ∨
      ((currentSessions m).length : Int) ≤ m.selectedSession then none
  else some ((currentSessions m).getD m.selectedSession.toNat default)

/-- The selection fallback at the top of `previewCmdForSelection`
(`main.go`): a repo row falls back to the first session of the selected
workspace. -/
def resolveSelection (m : pickerModel) : Option sessionInfo :=
  match selectedSessionInfo m with
  | some sel => some sel
  | none =>
    if m.groups = [] ∨ m.selectedWorkspace < 0 ∨
        (m.groups.length : Int) ≤ m.selectedWorkspace then none
    else
      match (m.groups.getD m.selectedWorkspace.toNat default).sessions with
      | [] => none
      | s :: _ => some s

/-- `previewCmdForSelection` from `main.go`. `none` models the `nil`
command: no tmux pane is created or respawned (those calls live in
`ensureSoftPreviewPane`, reached only through a non-`nil` command). The
detected split target is passed explicitly. -/
def previewCmdForSelection (m : pickerModel) (splitTarget : Option String) :
    Option (String × Option String × String) :=
  match resolveSelection m with
  | none => none
  | some sel =>
    if m.previewPane ≠ "" ∧ m.previewSession = sel.name then none
    else some (m.previewPane, splitTarget, sel.name)

/-- C8. When the selected session is already the one mirrored by the
existing preview pane, the preview step issues no command at all — zero
pane-create and zero pane-respawn calls. -/
theorem spec_c8_preview_noop (m : pickerModel) (st : Option String) (sel : sessionInfo)
    (hsel : resolveSelection m = some sel)
    (hpane : m.previewPane ≠ "")
    (hmirror : m.previewSession = sel.name) :
    previewCmdForSelection m st = none := by
  unfold previewCmdForSelection
  rw [hsel]
  show (if m.previewPane ≠ "" ∧ m.previewSession = sel.name then none
    else some (m.previewPane, st, sel.name)) = none
  rw [if_pos ⟨hpane, hmirror⟩]

/-- Witness for C8 at a concrete model mirroring the selected session. -/
theorem spec_c8_preview_noop_witness :
    previewCmdForSelection
      ⟨[⟨"root", "root", "root", "/", [⟨"alpha", "/root", false, 1⟩]⟩],
        0, 0, "%5", "alpha"⟩ (some "%1") = none :=
  spec_c8_preview_noop
    ⟨[⟨"root", "root", "root", "/", [⟨"alpha", "/root", false, 1⟩]⟩],
      0, 0, "%5", "alpha"⟩ (some "%1") ⟨"alpha", "/root", false, 1⟩
    (by decide) (by decide) (by decide)

/-! ### C7: quick-attach candidate collection and ranking -/

/-- `groupWorkspaceName` from `main.go`. -/
def groupWorkspaceName (g : workspaceGroup) : String :=
  if trimS g.workspace = "" then "root" else trimS g.workspace

/-- The `sort.Slice` comparator of `findQuickCandidates` (`main.go`):
score descending, then session name, workspace, repo ascending. -/
def candLess (a b : quickCandidate) : Bool :=
  if a.score ≠ b.score then decide (b.score < a.score)
  else if a.session.name ≠ b.session.name then strLt a.session.name b.session.name
  else if a.workspace ≠ b.workspace then strLt a.workspace b.workspace
  else strLt a.repo b.repo

/-- Candidate collection of `findQuickCandidates`: every (group, session)
pair the scorer accepts, in group/session order. -/
def collectCandidates (tokens : List String) (groups : List workspaceGroup) :
    List quickCandidate :=
  (groups.map (fun g => g.sessions.filterMap (fun s =>
    if (scoreSessionMatch tokens g s).2 then
      some ⟨groupWorkspaceName g, g.repo, s, (scoreSessionMatch tokens g s).1⟩
    else none))).join

/-- `a` may precede `b` under the comparator. -/
def candLE (a b : quickCandidate) : Prop := candLess b a = false

instance : DecidableRel candLE :=
  fun a b => inferInstanceAs (Decidable (candLess b a = false))

/-- The ranking sort of `findQuickCandidates`. -/
def sortCandidates (l : List quickCandidate) : List quickCandidate :=
  List.insertionSort candLE l

/-- `findQuickCandidates` from `main.go`, with the grouped sessions passed
explicitly. -/
def findQuickCandidates (tokens : List String) (groups : List workspaceGroup) :
    List quickCandidate :=
  sortCandidates (collectCandidates tokens groups)

/-- Strict lexicographic order on (workspace, repo) tie-break pairs. -/
def strPairLess (x y : String × String) : Prop :=
  strLt x.1 y.1 = true ∨ (x.1 = y.1 ∧ strLt x.2 y.2 = true)

/-- Strict lexicographic order on (name, workspace, repo) triples. -/
def strTriLess (x y : String × String × String) : Prop :=
  strLt x.1 y.1 = true ∨ (x.1 = y.1 ∧ strPairLess x.2 y.2)

/-- The tie-break key of a candidate. -/
def candKey (c : quickCandidate) : String × String × String :=
  (c.session.name, c.workspace, c.repo)

/-- The comparator as the claim states it: score descending, then the
string triple ascending. -/
def candStrict (a b : quickCandidate) : Prop :=
  b.score < a.score ∨ (a.score = b.score ∧ strTriLess (candKey a) (candKey b))

/-- The ranking relation of the claim, with full ties allowed. -/
def quickOrder (a b : quickCandidate) : Prop :=
  b.score < a.score ∨ (a.score = b.score ∧
    (strLt a.session.name b.session.name = true ∨ (a.session.name = b.session.name ∧
      (strLt a.workspace b.workspace = true ∨ (a.workspace = b.workspace ∧
        (strLt a.repo b.repo = true ∨ a.repo = b.repo))))))

theorem strLt_irrefl (a : String) : strLt a a = false := lexLt_irrefl a.data

theorem strLt_total_cases (a b : String) : strLt a b = true ∨ a = b ∨ strLt b a = true := by
  rcases lexLt_cases a.data b.data with h | h | h
  · exact Or.inl h
  · exact Or.inr (Or.inl (str_ext h))
  · exact Or.inr (Or.inr h)

theorem candLess_iff (a b : quickCandidate) : candLess a b = true ↔ candStrict a b := by
  unfold candLess candStrict candKey strTriLess strPairLess
  by_cases h1 : a.score = b.score
  · by_cases h2 : a.session.name = b.session.name
    · by_cases h3 : a.workspace = b.workspace
      · simp [h1, h2, h3, strLt_irrefl, lt_irrefl]
      · simp [h1, h2, h3, strLt_irrefl, lt_irrefl]
    · simp [h1, h2, strLt_irrefl, lt_irrefl]
  · simp [h1]

theorem candLess_false_iff (a b : quickCandidate) :
    candLess a b = false ↔ ¬candStrict a b := by
  rw [← candLess_iff]
  cases candLess a b <;> simp

theorem strPairLess_neg_parts {x y : String × String} (h : ¬strPairLess x y) :
    strLt x.1 y.1 = false ∧ (x.1 = y.1 → strLt x.2 y.2 = false) := by
  constructor
  · cases hx : strLt x.1 y.1
    · rfl
    · exact absurd (Or.inl hx) h
  · intro he
    cases hx : strLt x.2 y.2
    · rfl
    · exact absurd (Or.inr ⟨he, hx⟩) h

theorem strPairLess_neg_trans {x y z : String × String}
    (h1 : ¬strPairLess y x) (h2 : ¬strPairLess z y) : ¬strPairLess z x := by
  obtain ⟨h1l, h1r⟩ := strPairLess_neg_parts h1
  obtain ⟨h2l, h2r⟩ := strPairLess_neg_parts h2
  intro h3
  rcases h3 with h3 | ⟨he3, h3⟩
  · rcases strLt_total_cases x.1 y.1 with hxy | hxy | hxy
    · have hzy : strLt z.1 y.1 = true := lexLt_trans _ _ _ h3 hxy
      rw [h2l] at hzy
      exact Bool.false_ne_true hzy
    · rw [hxy] at h3
      rw [h2l] at h3
      exact Bool.false_ne_true h3
    · rw [h1l] at hxy
      exact Bool.false_ne_true hxy
  · rcases strLt_total_cases x.1 y.1 with hxy | hxy | hxy
    · have : strLt z.1 y.1 = true := by rw [he3]; exact hxy
      rw [h2l] at this
      exact Bool.false_ne_true this
    · have t1 : strLt y.2 x.2 = false := h1r hxy.symm
      have t2 : strLt z.2 y.2 = false := h2r (by rw [he3, hxy])
      have t3 : strLt z.2 x.2 = false := strLe_trans t1 t2
      rw [t3] at h3
      exact Bool.false_ne_true h3
    · rw [h1l] at hxy
      exact Bool.false_ne_true hxy

theorem strPairLess_neg_antisymm {x y : String × String}
    (h1 : ¬strPairLess x y) (h2 : ¬strPairLess y x) : x.1 = y.1 ∧ x.2 = y.2 := by
  obtain ⟨h1l, h1r⟩ := strPairLess_neg_parts h1
  obtain ⟨h2l, h2r⟩ := strPairLess_neg_parts h2
  have he : x.1 = y.1 := strLt_connex h1l h2l
  exact ⟨he, strLt_connex (h1r he) (h2r he.symm)⟩

theorem strTriLess_neg_parts {x y : String × String × String} (h : ¬strTriLess x y) :
    strLt x.1 y.1 = false ∧ (x.1 = y.1 → ¬strPairLess x.2 y.2) := by
  constructor
  · cases hx : strLt x.1 y.1
    · rfl
    · exact absurd (Or.inl hx) h
  · intro he hp
    exact h (Or.inr ⟨he, hp⟩)

theorem strTriLess_neg_trans {x y z : String × String × String}
    (h1 : ¬strTriLess y x) (h2 : ¬strTriLess z y) : ¬strTriLess z x := by
  obtain ⟨h1l, h1r⟩ := strTriLess_neg_parts h1
  obtain ⟨h2l, h2r⟩ := strTriLess_neg_parts h2
  intro h3
  rcases h3 with h3 | ⟨he3, h3⟩
  · rcases strLt_total_cases x.1 y.1 with hxy | hxy | hxy
    · have hzy : strLt z.1 y.1 = true := lexLt_trans _ _ _ h3 hxy
      rw [h2l] at hzy
      exact Bool.false_ne_true hzy
    · rw [hxy] at h3
      rw [h2l] at h3
      exact Bool.false_ne_true h3
    · rw [h1l] at hxy
      exact Bool.false_ne_true hxy
  · rcases strLt_total_cases x.1 y.1 with hxy | hxy | hxy
    · have : strLt z.1 y.1 = true := by rw [he3]; exact hxy
      rw [h2l] at this
      exact Bool.false_ne_true this
    · exact strPairLess_neg_trans (h1r hxy.symm) (h2r (by rw [he3, hxy])) h3
    · rw [h1l] at hxy
      exact Bool.false_ne_true hxy

theorem strTriLess_neg_antisymm {x y : String × String × String}
    (h1 : ¬strTriLess x y) (h2 : ¬strTriLess y x) :
    x.1 = y.1 ∧ x.2.1 = y.2.1 ∧ x.2.2 = y.2.2 := by
  obtain ⟨h1l, h1r⟩ := strTriLess_neg_parts h1
  obtain ⟨h2l, h2r⟩ := strTriLess_neg_parts h2
  have he : x.1 = y.1 := strLt_connex h1l h2l
  have hp := strPairLess_neg_antisymm (h1r he) (h2r he.symm)
  exact ⟨he, hp.1, hp.2⟩

theorem candStrict_neg_parts {a b : quickCandidate} (h : ¬candStrict a b) :
    a.score ≤ b.score ∧ (a.score = b.score → ¬strTriLess (candKey a) (candKey b)) := by
  constructor
  · by_contra hx
    exact h (Or.inl (by omega))
  · intro he ht
    exact h (Or.inr ⟨he, ht⟩)

theorem strPairLess_asymm {x y : String × String}
    (h1 : strPairLess x y) (h2 : strPairLess y x) : False := by
  rcases h1 with h1 | ⟨he1, h1⟩ <;> rcases h2 with h2 | ⟨he2, h2⟩
  · have h3 : strLt y.1 x.1 = false := lexLt_asymm h1
    rw [h3] at h2
    exact Bool.false_ne_true h2
  · rw [he2] at h1
    rw [strLt_irrefl] at h1
    exact Bool.false_ne_true h1
  · rw [he1] at h2
    rw [strLt_irrefl] at h2
    exact Bool.false_ne_true h2
  · have h3 : strLt y.2 x.2 = false := lexLt_asymm h1
    rw [h3] at h2
    exact Bool.false_ne_true h2

theorem strTriLess_asymm {x y : String × String × String}
    (h1 : strTriLess x y) (h2 : strTriLess y x) : False := by
  rcases h1 with h1 | ⟨he1, h1⟩ <;> rcases h2 with h2 | ⟨he2, h2⟩
  · have h3 : strLt y.1 x.1 = false := lexLt_asymm h1
    rw [h3] at h2
    exact Bool.false_ne_true h2
  · rw [he2] at h1
    rw [strLt_irrefl] at h1
    exact Bool.false_ne_true h1
  · rw [he1] at h2
    rw [strLt_irrefl] at h2
    exact Bool.false_ne_true h2
  · exact strPairLess_asymm h1 h2

theorem candStrict_asymm {a b : quickCandidate}
    (h1 : candStrict a b) (h2 : candStrict b a) : False := by
  rcases h1 with h1 | ⟨he1, h1⟩ <;> rcases h2 with h2 | ⟨he2, h2⟩
  · omega
  · omega
  · omega
  · exact strTriLess_asymm h1 h2

theorem candLE_trans {a b c : quickCandidate} (hab : candLE a b) (hbc : candLE b c) :
    candLE a c := by
  rw [candLE, candLess_false_iff] at hab hbc ⊢
  obtain ⟨h1l, h1r⟩ := candStrict_neg_parts hab
  obtain ⟨h2l, h2r⟩ := candStrict_neg_parts hbc
  intro h3
  rcases h3 with h3 | ⟨he3, h3⟩
  · omega
  · have hba : b.score = a.score := by omega
    have hcb : c.score = b.score := by omega
    exact strTriLess_neg_trans (h1r hba) (h2r hcb) h3

theorem candLE_total (a b : quickCandidate) : candLE a b ∨ candLE b a := by
  by_contra h
  push_neg at h
  obtain ⟨h1, h2⟩ := h
  rw [candLE] at h1 h2
  have h1' : candStrict b a := by
    rw [← candLess_iff]
    cases hx : candLess b a
    · exact absurd hx h1
    · rfl
  have h2' : candStrict a b := by
    rw [← candLess_iff]
    cases hx : candLess a b
    · exact absurd hx h2
    · rfl
  exact candStrict_asymm h2' h1'

instance : IsTotal quickCandidate candLE := ⟨candLE_total⟩

instance : IsTrans quickCandidate candLE := ⟨fun _ _ _ => candLE_trans⟩

theorem candLE_antisymm_keys {a b : quickCandidate} (hab : candLE a b) (hba : candLE b a) :
    a.score = b.score ∧ a.session.name = b.session.name ∧
    a.workspace = b.workspace ∧ a.repo = b.repo := by
  rw [candLE, candLess_false_iff] at hab hba
  obtain ⟨h1l, h1r⟩ := candStrict_neg_parts hba
  obtain ⟨h2l, h2r⟩ := candStrict_neg_parts hab
  have hsc : a.score = b.score := by omega
  have := strTriLess_neg_antisymm (h1r hsc) (h2r hsc.symm)
  exact ⟨hsc, this.1, this.2.1, this.2.2⟩

theorem candLE_imp_quickOrder {a b : quickCandidate} (h : candLE a b) : quickOrder a b := by
  rw [candLE, candLess_false_iff] at h
  obtain ⟨hl, hr⟩ := candStrict_neg_parts h
  unfold quickOrder
  by_cases hsc : a.score = b.score
  · right
    refine ⟨hsc, ?_⟩
    have ht := hr hsc.symm
    have t1 : strLt b.session.name a.session.name = false := (strTriLess_neg_parts ht).1
    have t2 : b.session.name = a.session.name →
        ¬strPairLess (b.workspace, b.repo) (a.workspace, a.repo) :=
      (strTriLess_neg_parts ht).2
    rcases strLt_total_cases a.session.name b.session.name with hn | hn | hn
    · exact Or.inl hn
    · right
      refine ⟨hn, ?_⟩
      have hp := t2 hn.symm
      have p1 : strLt b.workspace a.workspace = false := (strPairLess_neg_parts hp).1
      have p2 : b.workspace = a.workspace → strLt b.repo a.repo = false :=
        (strPairLess_neg_parts hp).2
      rcases strLt_total_cases a.workspace b.workspace with hw | hw | hw
      · exact Or.inl hw
      · right
        refine ⟨hw, ?_⟩
        have hrr := p2 hw.symm
        rcases strLt_total_cases a.repo b.repo with hq | hq | hq
        · exact Or.inl hq
        · exact Or.inr hq
        · rw [hrr] at hq
          exact absurd hq Bool.false_ne_true
      · rw [p1] at hw
        exact absurd hw Bool.false_ne_true
    · rw [t1] at hn
      exact absurd hn Bool.false_ne_true
  · left
    omega

/-- C7. The quick-attach result list is ordered by score descending with
ties broken by session name, then workspace, then repo ascending; it is a
permutation of the matched candidates; and for key-distinct candidate
lists the ranking is the same for any input order. -/
theorem spec_c7_ranking (tokens : List String) (groups : List workspaceGroup) :
    (findQuickCandidates tokens groups).Pairwise quickOrder ∧
    List.Perm (findQuickCandidates tokens groups) (collectCandidates tokens groups) ∧
    (∀ l l', List.Perm l l' →
      l.Pairwise (fun a b => ¬(a.score = b.score ∧ a.session.name = b.session.name ∧
        a.workspace = b.workspace ∧ a.repo = b.repo)) →
      sortCandidates l = sortCandidates l') := by
  refine ⟨?_, List.perm_insertionSort candLE _, ?_⟩
  · have hs : (findQuickCandidates tokens groups).Pairwise candLE :=
      List.sorted_insertionSort candLE _
    exact hs.imp candLE_imp_quickOrder
  · intro l l' hperm hkeys
    apply perm_sorted_eq candLE
    · exact (List.perm_insertionSort candLE l).trans
        (hperm.trans (List.perm_insertionSort candLE l').symm)
    · exact List.sorted_insertionSort candLE l
    · exact List.sorted_insertionSort candLE l'
    · intro a ha b hb hab hba
      have hkey := candLE_antisymm_keys hab hba
      by_contra hne
      have hmema : a ∈ l := (List.Perm.mem_iff (List.perm_insertionSort candLE l)).mp ha
      have hmemb : b ∈ l := (List.Perm.mem_iff (List.perm_insertionSort candLE l)).mp hb
      have hdiff := List.Pairwise.forall
        (fun {x y} h hcon => h ⟨hcon.1.symm, hcon.2.1.symm, hcon.2.2.1.symm, hcon.2.2.2.symm⟩ :
          Symmetric (fun a b : quickCandidate => ¬(a.score = b.score ∧
            a.session.name = b.session.name ∧ a.workspace = b.workspace ∧ a.repo = b.repo)))
        hkeys hmema hmemb hne
      exact hdiff hkey

/-- Witness for C7: sortedness at a concrete grouped state, and order
independence for two key-distinct candidates. -/
theorem spec_c7_ranking_witness :
    (findQuickCandidates ["op"]
      [⟨"git", "opasdf", "git/opasdf", "/root/git/opasdf",
        [⟨"opasdf-lazygit-1", "/root/git/opasdf", false, 1⟩,
         ⟨"opasdf-shell-1", "/root/git/opasdf", true, 2⟩]⟩]).Pairwise quickOrder ∧
    sortCandidates [⟨"git", "x", ⟨"n1", "", false, 0⟩, 12⟩,
        ⟨"git", "y", ⟨"n2", "", false, 0⟩, 15⟩] =
      sortCandidates [⟨"git", "y", ⟨"n2", "", false, 0⟩, 15⟩,
        ⟨"git", "x", ⟨"n1", "", false, 0⟩, 12⟩] :=
  ⟨(spec_c7_ranking ["op"]
      [⟨"git", "opasdf", "git/opasdf", "/root/git/opasdf",
        [⟨"opasdf-lazygit-1", "/root/git/opasdf", false, 1⟩,
         ⟨"opasdf-shell-1", "/root/git/opasdf", true, 2⟩]⟩]).1,
   (spec_c7_ranking ["op"] []).2.2
      [⟨"git", "x", ⟨"n1", "", false, 0⟩, 12⟩, ⟨"git", "y", ⟨"n2", "", false, 0⟩, 15⟩]
      [⟨"git", "y", ⟨"n2", "", false, 0⟩, 15⟩, ⟨"git", "x", ⟨"n1", "", false, 0⟩, 12⟩]
      (List.Perm.swap _ _ _) (by decide)⟩

end Echoshell
